import Mathlib

/-!
Shallow embedding of the `html-parser` repository (src/lib.rs, src/reader.rs,
src/parser.rs).  Strings are modelled as `List Char`; byte positions of the
Rust `&str` become char positions (all inputs of interest are ASCII, where the
two coincide).  Rust slicing `&data[pos..]` panics when `pos` exceeds the
length; a panic is modelled as `none` (for reader operations) or as
`PResult.panic` (for the tokenizer and tree builder, whose Rust counterparts
return `Result` but can also abort abnormally).
-/

/-- `reader.rs` lines 129-132: the reader error enum. -/
inductive ReadError where
  | DelimNotFound
deriving DecidableEq, Repr

/-- `lib.rs` lines 43-48: the parser error enum. -/
inductive HtmlError where
  | ReaderError (e : ReadError)
  | InvalidAst
  | DecodeFailed
deriving DecidableEq, Repr

/-- Outcome of a Rust computation returning `Result<α, HtmlError>` that may
additionally abort abnormally: `panic` models a Rust panic (out-of-bounds
slice or `Vec::remove` on an empty vector). -/
inductive PResult (α : Type) where
  | panic
  | error (e : HtmlError)
  | ok (a : α)
deriving DecidableEq, Repr

/-- Rust `str::find(char)` / `iter().position(|ch| *ch == x)`: index of the
first occurrence of `x`. -/
def findPos {α : Type} [DecidableEq α] (x : α) : List α → Option Nat
  | [] => none
  | a :: l => if a = x then some 0 else (findPos x l).map (· + 1)

/-- Rust `str::trim`: remove leading and trailing whitespace. -/
def trim (l : List Char) : List Char :=
  ((l.dropWhile Char.isWhitespace).reverse.dropWhile Char.isWhitespace).reverse

/-- Rust `str::trim_matches(c)`: repeatedly remove the character `c` from both
ends (all leading and all trailing occurrences). -/
def trimMatches (c : Char) (l : List Char) : List Char :=
  ((l.dropWhile (· = c)).reverse.dropWhile (· = c)).reverse

/-- Rust `str::split(sep)`: split at every occurrence of `sep`, keeping empty
pieces; the empty string yields one empty piece. -/
def splitOnChar (sep : Char) : List Char → List (List Char)
  | [] => [[]]
  | c :: rest =>
    let r := splitOnChar sep rest
    if c = sep then [] :: r
    else
      match r with
      | [] => [[c]]
      | h :: t => (c :: h) :: t

/-! ## `reader.rs`: `SliceReader` (lines 1-65) and `StrReader` (lines 67-127) -/

/-- `reader.rs` lines 1-4. -/
structure SliceReader (α : Type) where
  pos : Nat
  data : List α

namespace SliceReader

variable {α : Type} [DecidableEq α]

/-- `reader.rs` lines 10-12. -/
def new (data : List α) : SliceReader α := ⟨0, data⟩

/-- `reader.rs` lines 14-16: `&self.data[self.pos..]`, which panics (`none`)
when `pos > len`. -/
def rest (r : SliceReader α) : Option (List α) :=
  if r.pos ≤ r.data.length then some (r.data.drop r.pos) else none

/-- `reader.rs` lines 18-20. -/
def is_eof (r : SliceReader α) : Bool := decide (r.data.length ≤ r.pos)

/-- `reader.rs` lines 26-28. -/
def seek (r : SliceReader α) : Option (Option α) := (rest r).map List.head?

/-- `reader.rs` lines 37-39. -/
def reset (r : SliceReader α) : SliceReader α := ⟨0, r.data⟩

/-- `reader.rs` lines 41-43. -/
def skip (r : SliceReader α) (n : Nat) : SliceReader α := ⟨r.pos + n, r.data⟩

/-- `reader.rs` lines 30-35. -/
def seek_until (r : SliceReader α) (delim : α) : Option (Option (List α)) :=
  (rest r).map fun l => (findPos delim l).map fun i => l.take i

/-- `reader.rs` lines 55-64: on success return the span up to the delimiter
and advance the position to the delimiter; otherwise report
`DelimNotFound` with the position unchanged. -/
def read_until (r : SliceReader α) (delim : α) :
    Option (Except ReadError (List α) × SliceReader α) :=
  (rest r).map fun l =>
    match findPos delim l with
    | some i => (Except.ok (l.take i), ⟨r.pos + i, r.data⟩)
    | none => (Except.error ReadError.DelimNotFound, r)

end SliceReader

/-- `reader.rs` lines 67-70. -/
structure StrReader where
  pos : Nat
  data : List Char
deriving Repr

namespace StrReader

/-- `reader.rs` lines 73-75. -/
def new (data : List Char) : StrReader := ⟨0, data⟩

/-- `reader.rs` lines 77-79: `&self.data[self.pos..]`, which panics (`none`)
when `pos > len`. -/
def rest (r : StrReader) : Option (List Char) :=
  if r.pos ≤ r.data.length then some (r.data.drop r.pos) else none

/-- `reader.rs` lines 81-83. -/
def is_eof (r : StrReader) : Bool := decide (r.data.length ≤ r.pos)

/-- `reader.rs` lines 89-91. -/
def skip (r : StrReader) (n : Nat) : StrReader := ⟨r.pos + n, r.data⟩

/-- Length of the prefix the `skip_while` loop of `reader.rs` lines 93-101
advances over. -/
def skip_while_go (f : Char → Bool) : List Char → Nat
  | [] => 0
  | c :: l => if f c then skip_while_go f l + 1 else 0

/-- `reader.rs` lines 93-101: `while let Some(ch) = seek { if f ch { skip 1 }
else break }`.  The loop panics iff the initial position is past the end
(the first `seek` panics); otherwise it advances past the longest prefix of
the remainder satisfying `f`. -/
def skip_while (r : StrReader) (f : Char → Bool) : Option StrReader :=
  (rest r).map fun l => ⟨r.pos + skip_while_go f l, r.data⟩

/-- `reader.rs` lines 103-105. -/
def reset (r : StrReader) : StrReader := ⟨0, r.data⟩

/-- `reader.rs` lines 107-109: `rest().chars().nth(0)`. -/
def seek (r : StrReader) : Option (Option Char) := (rest r).map List.head?

/-- `reader.rs` lines 111-115. -/
def seek_until (r : StrReader) (delim : Char) : Option (Option (List Char)) :=
  (rest r).map fun l => (findPos delim l).map fun i => l.take i

/-- `reader.rs` lines 117-126. -/
def read_until (r : StrReader) (delim : Char) :
    Option (Except ReadError (List Char) × StrReader) :=
  (rest r).map fun l =>
    match findPos delim l with
    | some i => (Except.ok (l.take i), ⟨r.pos + i, r.data⟩)
    | none => (Except.error ReadError.DelimNotFound, r)

end StrReader

/-! ## `parser.rs`: tokenizer -/

/-- `parser.rs` lines 3-9: the token type.  `EndTag` deliberately carries no
name. -/
inductive HtmlAst where
  | StartTag (tag : List Char)
  | Attribute (name : List Char) (value : Option (List Char))
  | EndTag
  | Text (text : List Char)
deriving DecidableEq, Repr

/-- `parser.rs` lines 50-60: one attribute fragment.  Split at the first `=`
if any; trim the name; trim the value and then strip all leading/trailing
double quotes (`trim_matches`). -/
def attrToken (attr : List Char) : HtmlAst :=
  let nv : List Char × Option (List Char) :=
    match findPos '=' attr with
    | some i => (attr.take i, some (attr.drop (i + 1)))
    | none => (attr, none)
  HtmlAst.Attribute (trim nv.1) (nv.2.map fun v => trimMatches '"' (trim v))

/-- `parser.rs` lines 37-62: the token group emitted for one start tag whose
raw content (between `<` and `>`) is `tag`: split at the first space into the
tag name and the attribute region; the region is trimmed and split on single
spaces into fragments. -/
def startTagTokens (tag : List Char) : List HtmlAst :=
  match findPos ' ' tag with
  | some i =>
    HtmlAst.StartTag (tag.take i) :: (splitOnChar ' ' (trim (tag.drop i))).map attrToken
  | none => [HtmlAst.StartTag tag]

/-- `parser.rs` lines 15-71: the tokenizer loop, fuel-indexed.  Each iteration
strictly advances the reader position, so fuel `data.length + 2` (used by
`tokenize_html`) is always sufficient; fuel 0 is unreachable from
`tokenize_html` and modelled as `panic`. -/
def tokenizeLoop : Nat → StrReader → List HtmlAst → PResult (List HtmlAst)
  | 0, _, _ => PResult.panic
  | fuel + 1, r, ast =>
    match r.skip_while Char.isWhitespace with
    | none => PResult.panic
    | some r1 =>
      match r1.seek with
      | none => PResult.panic
      | some none => PResult.ok ast
      | some (some c) =>
        if c = '<' then
          let r2 := r1.skip 1
          match r2.seek with
          | none => PResult.panic
          | some c2 =>
            if c2 = some '/' then
              match r2.read_until '>' with
              | none => PResult.panic
              | some (Except.error e, _) => PResult.error (HtmlError.ReaderError e)
              | some (Except.ok _, r3) =>
                tokenizeLoop fuel (r3.skip 1) (ast ++ [HtmlAst.EndTag])
            else if c2 = some '!' then
              match (r2.skip 1).skip_while (· ≠ '>') with
              | none => PResult.panic
              | some r3 => tokenizeLoop fuel (r3.skip 1) ast
            else
              match r2.read_until '>' with
              | none => PResult.panic
              | some (Except.error e, _) => PResult.error (HtmlError.ReaderError e)
              | some (Except.ok tag, r3) =>
                tokenizeLoop fuel (r3.skip 1) (ast ++ startTagTokens tag)
        else
          match r1.read_until '<' with
          | none => PResult.panic
          | some (Except.error e, _) => PResult.error (HtmlError.ReaderError e)
          | some (Except.ok text, r2) =>
            tokenizeLoop fuel r2 (ast ++ [HtmlAst.Text text])

/-- `parser.rs` lines 11-74. -/
def tokenize_html (data : List Char) : PResult (List HtmlAst) :=
  tokenizeLoop (data.length + 2) (StrReader.new data) []

/-! ## `lib.rs`: elements; `parser.rs`: tree builder and serializer -/

/-- `lib.rs` lines 6-16. -/
structure HtmlAttribute where
  name : List Char
  value : Option (List Char)
deriving DecidableEq, Repr

/-- `lib.rs` lines 18-24. -/
structure HtmlElement where
  tag : List Char
  attributes : List HtmlAttribute
  children : List HtmlElement
  inner_text : Option (List Char)

/-- `lib.rs` lines 27-32. -/
def HtmlElement.new (tag : List Char) : HtmlElement := ⟨tag, [], [], none⟩

/-- `lib.rs` lines 34-36. -/
def HtmlElement.add_attribute (e : HtmlElement) (name : List Char)
    (value : Option (List Char)) : HtmlElement :=
  { e with attributes := e.attributes ++ [⟨name, value⟩] }

/-- `lib.rs` lines 38-40. -/
def HtmlElement.add_child (e : HtmlElement) (child : HtmlElement) : HtmlElement :=
  { e with children := e.children ++ [child] }

/-- `parser.rs` lines 83-110: the tree-builder loop over the token stream.
The stack front is the most recently opened element (`Vec::insert(0, ..)` /
`remove(0)` / `first_mut`).  `Vec::remove(0)` on an empty vector panics, so an
`EndTag` with an empty stack is `panic`; `Attribute`/`Text` with an empty
stack use `ok_or(InvalidAst)` and produce an error value. -/
def buildLoop : List HtmlAst → List HtmlElement → List HtmlElement →
    PResult (List HtmlElement)
  | [], stack, elements =>
    if stack.isEmpty then PResult.ok elements else PResult.error HtmlError.InvalidAst
  | token :: ts, stack, elements =>
    match token with
    | HtmlAst.StartTag tag => buildLoop ts (HtmlElement.new tag :: stack) elements
    | HtmlAst.Attribute name value =>
      match stack with
      | [] => PResult.error HtmlError.InvalidAst
      | e :: rest => buildLoop ts (e.add_attribute name value :: rest) elements
    | HtmlAst.EndTag =>
      match stack with
      | [] => PResult.panic
      | e :: rest =>
        match rest with
        | parent :: rest2 => buildLoop ts (parent.add_child e :: rest2) elements
        | [] => buildLoop ts [] (elements ++ [e])
    | HtmlAst.Text text =>
      match stack with
      | [] => PResult.error HtmlError.InvalidAst
      | e :: rest => buildLoop ts ({ e with inner_text := some text } :: rest) elements

/-- `parser.rs` lines 76-111. -/
def parse_html (data : List Char) : PResult (List HtmlElement) :=
  match tokenize_html data with
  | PResult.panic => PResult.panic
  | PResult.error e => PResult.error e
  | PResult.ok tokens => buildLoop tokens [] []

/-- `parser.rs` lines 113-143: the serializer.  For each element emit
`<tag attrs>`, then the inner text if present else the serialized children,
then `</tag>`. -/
def html_to_string : List HtmlElement → List Char
  | [] => []
  | element :: restElems =>
    (if element.attributes.length > 0 then
      ('<' :: element.tag) ++
        (element.attributes.map fun attr =>
          match attr.value with
          | some v => (' ' :: attr.name) ++ ('=' :: '"' :: v) ++ ['"']
          | none => ' ' :: attr.name).flatten ++ ['>']
    else ('<' :: element.tag) ++ ['>']) ++
    (match element.inner_text with
     | some t => t
     | none => html_to_string element.children) ++
    ('<' :: '/' :: element.tag) ++ ['>'] ++
    html_to_string restElems
termination_by l => sizeOf l
decreasing_by
  · cases ‹HtmlElement›
    simp only [List.cons.sizeOf_spec, HtmlElement.mk.sizeOf_spec]
    omega
  · simp only [List.cons.sizeOf_spec]
    omega

/-- The builder's token traversal without the final stack check and without
early exits: the final `(stack, elements)` state when every token of the
stream is processed, `none` if an `Attribute`/`Text`/`EndTag` meets an empty
stack before the end. -/
def buildRun : List HtmlAst → List HtmlElement → List HtmlElement →
    Option (List HtmlElement × List HtmlElement)
  | [], stack, elements => some (stack, elements)
  | token :: ts, stack, elements =>
    match token with
    | HtmlAst.StartTag tag => buildRun ts (HtmlElement.new tag :: stack) elements
    | HtmlAst.Attribute name value =>
      match stack with
      | [] => none
      | e :: rest => buildRun ts (e.add_attribute name value :: rest) elements
    | HtmlAst.EndTag =>
      match stack with
      | [] => none
      | e :: rest =>
        match rest with
        | parent :: rest2 => buildRun ts (parent.add_child e :: rest2) elements
        | [] => buildRun ts [] (elements ++ [e])
    | HtmlAst.Text text =>
      match stack with
      | [] => none
      | e :: rest => buildRun ts ({ e with inner_text := some text } :: rest) elements

/-- `true` iff, starting from a stack of depth `d`, no `EndTag` of the token
stream ever meets an empty stack (`StartTag` pushes, `EndTag` pops, other
tokens leave the depth unchanged). -/
def noUnderflow : Nat → List HtmlAst → Bool
  | _, [] => true
  | d, HtmlAst.StartTag _ :: ts => noUnderflow (d + 1) ts
  | d, HtmlAst.EndTag :: ts => decide (0 < d) && noUnderflow (d - 1) ts
  | d, HtmlAst.Attribute _ _ :: ts => noUnderflow d ts
  | d, HtmlAst.Text _ :: ts => noUnderflow d ts

/-- List-level restatement of the tokenizer loop `tokenizeLoop`, used to
reason about it independently of buffer positions: the state is the remaining
input, or `none` once the position has moved strictly past the end of the
buffer (in which case the next iteration panics). -/
def tokListLoop : Nat → Option (List Char) → List HtmlAst → PResult (List HtmlAst)
  | 0, _, _ => PResult.panic
  | _ + 1, none, _ => PResult.panic
  | fuel + 1, some l, ast =>
    match l.dropWhile Char.isWhitespace with
    | [] => PResult.ok ast
    | c :: l2 =>
      if c = '<' then
        if l2.head? = some '/' then
          match findPos '>' l2 with
          | some i =>
            tokListLoop fuel (some (l2.drop (i + 1))) (ast ++ [HtmlAst.EndTag])
          | none => PResult.error (HtmlError.ReaderError ReadError.DelimNotFound)
        else if l2.head? = some '!' then
          match (l2.drop 1).dropWhile (· ≠ '>') with
          | [] => tokListLoop fuel none ast
          | _ :: rest2 => tokListLoop fuel (some rest2) ast
        else
          match findPos '>' l2 with
          | some i =>
            tokListLoop fuel (some (l2.drop (i + 1)))
              (ast ++ startTagTokens (l2.take i))
          | none => PResult.error (HtmlError.ReaderError ReadError.DelimNotFound)
      else
        match findPos '<' (c :: l2) with
        | some i =>
          tokListLoop fuel (some ((c :: l2).drop i))
            (ast ++ [HtmlAst.Text ((c :: l2).take i)])
        | none => PResult.error (HtmlError.ReaderError ReadError.DelimNotFound)

/-! ## Helper lemmas about `findPos` and the readers -/

theorem findPos_eq_none {α : Type} [DecidableEq α] {x : α} {l : List α}
    (h : x ∉ l) : findPos x l = none := by
  induction l with
  | nil => rfl
  | cons a l ih =>
    simp only [List.mem_cons, not_or] at h
    rw [findPos, if_neg (fun hax => h.1 hax.symm), ih h.2]
    rfl

theorem findPos_append {α : Type} [DecidableEq α] (x : α) (pre post : List α)
    (h : x ∉ pre) : findPos x (pre ++ x :: post) = some pre.length := by
  induction pre with
  | nil => simp [findPos]
  | cons a l ih =>
    simp only [List.mem_cons, not_or] at h
    rw [List.cons_append, findPos, if_neg (fun hax => h.1 hax.symm), ih h.2]
    rfl

theorem findPos_isSome_of_mem {α : Type} [DecidableEq α] {x : α} {l : List α}
    (h : x ∈ l) : ∃ i, findPos x l = some i := by
  induction l with
  | nil => cases h
  | cons a l ih =>
    by_cases hax : a = x
    · exact ⟨0, by rw [findPos, if_pos hax]⟩
    · rcases List.mem_cons.mp h with h1 | h2
      · exact absurd h1.symm hax
      · obtain ⟨i, hi⟩ := ih h2
        exact ⟨i + 1, by rw [findPos, if_neg hax, hi]; rfl⟩

/-- The re-serialized form of one attribute, as emitted by `html_to_string`
after the leading space: `name` or `name=\"value\"`. -/
def attrFragment (a : HtmlAttribute) : List Char :=
  match a.value with
  | some v => a.name ++ '=' :: '"' :: v ++ ['"']
  | none => a.name

/-- The attribute region `html_to_string` emits between the tag name and the
closing `>`: a space followed by each fragment. -/
def attrsRegion (l : List HtmlAttribute) : List Char :=
  (l.map fun a => ' ' :: attrFragment a).flatten

/-- Both edges (if any) are non-whitespace. -/
def noWsEdges (l : List Char) : Bool :=
  (l.head?.all fun c => !c.isWhitespace) && (l.getLast?.all fun c => !c.isWhitespace)

/-- Attribute names as produced by the tokenizer: no space, `>` or `=`, and
trimmed (non-whitespace edges). -/
def wfName (n : List Char) : Bool :=
  n.all (fun c => !(c = ' ') && !(c = '>') && !(c = '=')) && noWsEdges n

/-- Attribute values as produced by the tokenizer: no space or `>`, trimmed,
and with no leading or trailing double quote. -/
def wfValue (v : List Char) : Bool :=
  v.all (fun c => !(c = ' ') && !(c = '>')) && noWsEdges v &&
  (v.head?.all fun c => !(c = '"')) && (v.getLast?.all fun c => !(c = '"'))

def wfAttr (a : HtmlAttribute) : Bool :=
  wfName a.name && a.value.all wfValue

/-- A valueless attribute with an empty name (serialized as the empty
fragment). -/
def emptyFrag (a : HtmlAttribute) : Bool :=
  a.name.isEmpty && a.value.isNone

/-- Attribute lists that survive the serialize-tokenize round trip: all
attributes well formed, and when there are two or more, the first and last
fragments are non-empty (the region is trimmed as a whole before splitting,
so empty edge fragments would be lost). -/
def wfAttrs (l : List HtmlAttribute) : Bool :=
  l.all wfAttr &&
  (decide (l.length ≤ 1) ||
    ((l.head?.all fun a => !emptyFrag a) && (l.getLast?.all fun a => !emptyFrag a)))

/-- Tag names as produced by the tokenizer: no space or `>`, and not starting
with `/` or `!`. -/
def wfTag (t : List Char) : Bool :=
  t.all (fun c => !(c = ' ') && !(c = '>')) &&
  (t.head?.all fun c => !(c = '/') && !(c = '!'))

/-- Text runs as produced by the tokenizer: non-empty, no `<`, not starting
with whitespace. -/
def wfText (t : List Char) : Bool :=
  !t.isEmpty && t.all (fun c => !(c = '<')) &&
  (t.head?.all fun c => !c.isWhitespace)

/-- Forests that round-trip through serialize-then-parse: every element has a
well-formed tag, attribute list and content; an element that retains inner
text has no children (inner text wins during serialization, so children would
be lost). -/
def wfForest : List HtmlElement → Bool
  | [] => true
  | e :: rest =>
    wfTag e.tag && wfAttrs e.attributes &&
    (e.inner_text.all fun t => wfText t && e.children.isEmpty) &&
    wfForest e.children && wfForest rest
termination_by l => sizeOf l
decreasing_by
  · cases ‹HtmlElement›
    simp only [List.cons.sizeOf_spec, HtmlElement.mk.sizeOf_spec]
    omega
  · simp only [List.cons.sizeOf_spec]
    omega

/-- The token stream the tokenizer emits for a serialized forest. -/
def tokensOfForest : List HtmlElement → List HtmlAst
  | [] => []
  | e :: rest =>
    (HtmlAst.StartTag e.tag ::
      ((e.attributes.map fun a => HtmlAst.Attribute a.name a.value) ++
        (match e.inner_text with
         | some t => [HtmlAst.Text t]
         | none => tokensOfForest e.children) ++ [HtmlAst.EndTag])) ++
      tokensOfForest rest
termination_by l => sizeOf l
decreasing_by
  · cases ‹HtmlElement›
    simp only [List.cons.sizeOf_spec, HtmlElement.mk.sizeOf_spec]
    omega
  · simp only [List.cons.sizeOf_spec]
    omega

/-! ## Infrastructure: relating the position-based loop to the list level -/

theorem findPos_lt_length {α : Type} [DecidableEq α] {x : α} :
    ∀ {l : List α} {i : Nat}, findPos x l = some i → i < l.length := by
  intro l
  induction l with
  | nil => intro i h; cases h
  | cons a l ih =>
    intro i h
    rw [findPos] at h
    by_cases hax : a = x
    · rw [if_pos hax] at h
      injection h with h'
      rw [← h']
      simp
    · rw [if_neg hax] at h
      cases hfind : findPos x l with
      | none => rw [hfind] at h; cases h
      | some j =>
        rw [hfind] at h
        injection h with h'
        have hj := ih hfind
        rw [← h']
        simp only [List.length_cons]
        omega

theorem length_takeWhile_le {α : Type} (f : α → Bool) (l : List α) :
    (l.takeWhile f).length ≤ l.length := by
  induction l with
  | nil => simp
  | cons a l ih =>
    rw [List.takeWhile_cons]
    by_cases h : f a = true
    · rw [if_pos h]; simpa using ih
    · rw [if_neg h]; simp

theorem skip_while_go_spec (f : Char → Bool) (l : List Char) :
    StrReader.skip_while_go f l = (l.takeWhile f).length := by
  induction l with
  | nil => rfl
  | cons a l ih =>
    rw [StrReader.skip_while_go, List.takeWhile_cons]
    by_cases h : f a = true
    · rw [if_pos h, if_pos h, ih]; rfl
    · rw [if_neg h, if_neg h]; rfl

theorem drop_length_takeWhile {α : Type} (f : α → Bool) (l : List α) :
    l.drop (l.takeWhile f).length = l.dropWhile f := by
  induction l with
  | nil => rfl
  | cons a l ih =>
    rw [List.takeWhile_cons, List.dropWhile_cons]
    by_cases h : f a = true
    · rw [if_pos h, if_pos h, List.length_cons]
      simpa using ih
    · rw [if_neg h, if_neg h]
      rfl

theorem tokenizeLoop_past_end (fuel : Nat) (r : StrReader) (ast : List HtmlAst)
    (h : r.data.length < r.pos) : tokenizeLoop fuel r ast = PResult.panic := by
  cases fuel with
  | zero => rfl
  | succ f =>
    have hsw : r.skip_while Char.isWhitespace = none := by
      rw [StrReader.skip_while, StrReader.rest, if_neg (by omega)]
      rfl
    simp only [tokenizeLoop, hsw]

theorem tokList_none (fuel : Nat) (ast : List HtmlAst) :
    tokListLoop fuel none ast = PResult.panic := by
  cases fuel with
  | zero => rfl
  | succ f => rfl

theorem strRest_eq {p : Nat} {d : List Char} (h : p ≤ d.length) :
    StrReader.rest ⟨p, d⟩ = some (d.drop p) := if_pos h

theorem strSeek_eq {p : Nat} {d : List Char} (h : p ≤ d.length) :
    StrReader.seek ⟨p, d⟩ = some ((d.drop p).head?) := by
  rw [StrReader.seek, strRest_eq h, Option.map_some']

theorem strSkipWhile_eq (f : Char → Bool) {p : Nat} {d : List Char}
    (h : p ≤ d.length) :
    StrReader.skip_while ⟨p, d⟩ f =
      some ⟨p + ((d.drop p).takeWhile f).length, d⟩ := by
  rw [StrReader.skip_while, strRest_eq h, Option.map_some', skip_while_go_spec]

theorem strReadUntil_found (x : Char) {p : Nat} {d : List Char} {i : Nat}
    (h : p ≤ d.length) (hf : findPos x (d.drop p) = some i) :
    StrReader.read_until ⟨p, d⟩ x =
      some (Except.ok ((d.drop p).take i), ⟨p + i, d⟩) := by
  rw [StrReader.read_until, strRest_eq h, Option.map_some', hf]

theorem strReadUntil_notfound (x : Char) {p : Nat} {d : List Char}
    (h : p ≤ d.length) (hf : findPos x (d.drop p) = none) :
    StrReader.read_until ⟨p, d⟩ x =
      some (Except.error ReadError.DelimNotFound, ⟨p, d⟩) := by
  rw [StrReader.read_until, strRest_eq h, Option.map_some', hf]

theorem drop_add (d : List Char) (p k : Nat) :
    d.drop (p + k) = (d.drop p).drop k := (List.drop_drop k p d).symm

/-- The position-based tokenizer loop agrees with its list-level
restatement whenever the position is within bounds. -/
theorem tokenizeLoop_eq_tokList :
    ∀ (fuel p : Nat) (d : List Char) (ast : List HtmlAst), p ≤ d.length →
      tokenizeLoop fuel ⟨p, d⟩ ast = tokListLoop fuel (some (d.drop p)) ast := by
  intro fuel
  induction fuel with
  | zero => intro p d ast _; rfl
  | succ fuel ih =>
    intro p d ast hle
    have hsw := strSkipWhile_eq Char.isWhitespace hle
    have hkle : p + ((d.drop p).takeWhile Char.isWhitespace).length ≤ d.length := by
      have h1 := length_takeWhile_le Char.isWhitespace (d.drop p)
      have h2 : (d.drop p).length = d.length - p := List.length_drop p d
      omega
    have hdropk : d.drop (p + ((d.drop p).takeWhile Char.isWhitespace).length)
        = (d.drop p).dropWhile Char.isWhitespace := by
      rw [drop_add, drop_length_takeWhile]
    have hseek := strSeek_eq hkle
    rw [hdropk] at hseek
    simp only [tokenizeLoop, tokListLoop, hsw]
    cases hl1 : (d.drop p).dropWhile Char.isWhitespace with
    | nil =>
      rw [hl1] at hseek
      simp only [List.head?_nil] at hseek
      simp only [hseek, hl1]
    | cons c l2 =>
      have hne : d.drop (p + ((d.drop p).takeWhile Char.isWhitespace).length)
          = c :: l2 := by rw [hdropk, hl1]
      have hlt : p + ((d.drop p).takeWhile Char.isWhitespace).length < d.length := by
        have h3 := List.length_drop
          (p + ((d.drop p).takeWhile Char.isWhitespace).length) d
        rw [hne] at h3
        simp only [List.length_cons] at h3
        omega
      rw [hl1] at hseek
      simp only [List.head?_cons] at hseek
      simp only [hseek, hl1]
      by_cases hc : c = '<'
      · rw [if_pos hc, if_pos hc]
        have h2le : p + ((d.drop p).takeWhile Char.isWhitespace).length + 1
            ≤ d.length := by omega
        have hdrop2 : d.drop
            (p + ((d.drop p).takeWhile Char.isWhitespace).length + 1) = l2 := by
          rw [drop_add d (p + ((d.drop p).takeWhile Char.isWhitespace).length) 1,
            hne]
          rfl
        have hl2len : l2.length = d.length -
            (p + ((d.drop p).takeWhile Char.isWhitespace).length + 1) := by
          rw [← hdrop2, List.length_drop]
        have hseek2 : StrReader.seek
            ⟨p + ((d.drop p).takeWhile Char.isWhitespace).length + 1, d⟩ =
            some l2.head? := by
          rw [strSeek_eq h2le, hdrop2]
        simp only [StrReader.skip, hseek2]
        by_cases h1 : l2.head? = some '/'
        · rw [if_pos h1, if_pos h1]
          cases hfind : findPos '>' l2 with
          | none =>
            have hru := strReadUntil_notfound '>' h2le (by rw [hdrop2]; exact hfind)
            simp only [hru, hfind]
          | some i =>
            have hilt : i < l2.length := findPos_lt_length hfind
            have hru := strReadUntil_found '>' h2le (by rw [hdrop2]; exact hfind)
            have h3le : p + ((d.drop p).takeWhile Char.isWhitespace).length
                + 1 + i + 1 ≤ d.length := by omega
            have hdrop3 : d.drop
                (p + ((d.drop p).takeWhile Char.isWhitespace).length + 1 + i + 1)
                = l2.drop (i + 1) := by
              rw [show p + ((d.drop p).takeWhile Char.isWhitespace).length
                    + 1 + i + 1
                  = p + ((d.drop p).takeWhile Char.isWhitespace).length + 1
                    + (i + 1) from by omega,
                drop_add, hdrop2]
            simp only [hru, hfind, StrReader.skip]
            rw [ih _ _ _ h3le, hdrop3]
        · by_cases h2 : l2.head? = some '!'
          · rw [if_neg h1, if_pos h2, if_neg h1, if_pos h2]
            have hl2ne : l2 ≠ [] := by
              intro hnil; rw [hnil] at h2; cases h2
            have hl2pos : 0 < l2.length := List.length_pos.mpr hl2ne
            have h3le : p + ((d.drop p).takeWhile Char.isWhitespace).length + 2
                ≤ d.length := by omega
            have hdrop3 : d.drop
                (p + ((d.drop p).takeWhile Char.isWhitespace).length + 2)
                = l2.drop 1 := by
              rw [show p + ((d.drop p).takeWhile Char.isWhitespace).length + 2
                  = p + ((d.drop p).takeWhile Char.isWhitespace).length + 1 + 1
                  from by omega, drop_add, hdrop2]
            have hsw2 := strSkipWhile_eq (· ≠ '>') h3le
            rw [hdrop3] at hsw2
            have hk2le : p + ((d.drop p).takeWhile Char.isWhitespace).length + 2
                + ((l2.drop 1).takeWhile (· ≠ '>')).length ≤ d.length := by
              have h4 := length_takeWhile_le (· ≠ '>') (l2.drop 1)
              have h5 : (l2.drop 1).length = l2.length - 1 :=
                List.length_drop 1 l2
              omega
            have hdropk2 : d.drop
                (p + ((d.drop p).takeWhile Char.isWhitespace).length + 2
                  + ((l2.drop 1).takeWhile (· ≠ '>')).length)
                = (l2.drop 1).dropWhile (· ≠ '>') := by
              rw [drop_add, hdrop3, drop_length_takeWhile]
            simp only [StrReader.skip, hsw2]
            cases hl3 : (l2.drop 1).dropWhile (· ≠ '>') with
            | nil =>
              rw [hl3] at hdropk2
              have hend : p + ((d.drop p).takeWhile Char.isWhitespace).length + 2
                  + ((l2.drop 1).takeWhile (· ≠ '>')).length = d.length := by
                have h6 := List.length_drop
                  (p + ((d.drop p).takeWhile Char.isWhitespace).length + 2
                    + ((l2.drop 1).takeWhile (· ≠ '>')).length) d
                rw [hdropk2] at h6
                simp only [List.length_nil] at h6
                omega
              rw [tokenizeLoop_past_end fuel _ ast (by show d.length < _ + 1; omega)]
              exact (tokList_none fuel ast).symm
            | cons c3 rest2 =>
              rw [hl3] at hdropk2
              have hlt2 : p + ((d.drop p).takeWhile Char.isWhitespace).length + 2
                  + ((l2.drop 1).takeWhile (· ≠ '>')).length < d.length := by
                have h6 := List.length_drop
                  (p + ((d.drop p).takeWhile Char.isWhitespace).length + 2
                    + ((l2.drop 1).takeWhile (· ≠ '>')).length) d
                rw [hdropk2] at h6
                simp only [List.length_cons] at h6
                omega
              have hdrop4 : d.drop
                  (p + ((d.drop p).takeWhile Char.isWhitespace).length + 2
                    + ((l2.drop 1).takeWhile (· ≠ '>')).length + 1) = rest2 := by
                rw [drop_add, hdropk2]
                rfl
              rw [ih _ _ _ (by omega), hdrop4]
          · rw [if_neg h1, if_neg h2, if_neg h1, if_neg h2]
            cases hfind : findPos '>' l2 with
            | none =>
              have hru := strReadUntil_notfound '>' h2le
                (by rw [hdrop2]; exact hfind)
              simp only [hru, hfind]
            | some i =>
              have hilt : i < l2.length := findPos_lt_length hfind
              have hru := strReadUntil_found '>' h2le
                (by rw [hdrop2]; exact hfind)
              rw [hdrop2] at hru
              have h3le : p + ((d.drop p).takeWhile Char.isWhitespace).length
                  + 1 + i + 1 ≤ d.length := by omega
              have hdrop3 : d.drop
                  (p + ((d.drop p).takeWhile Char.isWhitespace).length
                    + 1 + i + 1) = l2.drop (i + 1) := by
                rw [show p + ((d.drop p).takeWhile Char.isWhitespace).length
                      + 1 + i + 1
                    = p + ((d.drop p).takeWhile Char.isWhitespace).length + 1
                      + (i + 1) from by omega,
                  drop_add, hdrop2]
              simp only [hru, hfind, StrReader.skip]
              rw [ih _ _ _ h3le, hdrop3]
      · rw [if_neg hc, if_neg hc]
        cases hfind : findPos '<' (c :: l2) with
        | none =>
          have hru := strReadUntil_notfound '<' hkle (by rw [hne]; exact hfind)
          simp only [hru, hfind]
        | some i =>
          have hilt : i < (c :: l2).length := findPos_lt_length hfind
          simp only [List.length_cons] at hilt
          have hru := strReadUntil_found '<' hkle (by rw [hne]; exact hfind)
          rw [hne] at hru
          have h3le : p + ((d.drop p).takeWhile Char.isWhitespace).length + i
              ≤ d.length := by
            have h3 : (c :: l2).length = d.length -
                (p + ((d.drop p).takeWhile Char.isWhitespace).length) := by
              rw [← hne, List.length_drop]
            simp only [List.length_cons] at h3
            omega
          have hdrop4 : d.drop
              (p + ((d.drop p).takeWhile Char.isWhitespace).length + i)
              = (c :: l2).drop i := by rw [drop_add, hne]
          simp only [hru, hfind]
          rw [ih _ _ _ h3le, hdrop4]

/-- `tokenize_html` in terms of the list-level loop. -/
theorem tokenize_html_eq_tokList (d : List Char) :
    tokenize_html d = tokListLoop (d.length + 2) (some d) [] := by
  rw [tokenize_html, StrReader.new]
  rw [show (StrReader.mk 0 d) = ⟨0, d⟩ from rfl]
  rw [tokenizeLoop_eq_tokList (d.length + 2) 0 d [] (Nat.zero_le _), List.drop_zero]

theorem dropWhile_cons_false {f : Char → Bool} {c : Char} {l : List Char}
    (h : f c = false) : (c :: l).dropWhile f = c :: l := by
  rw [List.dropWhile_cons, h]
  rfl

/-- One tokenizer iteration at EOF: tokenization ends successfully. -/
theorem tokList_step_done (fuel : Nat) (l : List Char) (ast : List HtmlAst)
    (h : l.dropWhile Char.isWhitespace = []) :
    tokListLoop (fuel + 1) (some l) ast = PResult.ok ast := by
  simp only [tokListLoop, h]

/-- One tokenizer iteration on a close tag `</...>`. -/
theorem tokList_step_endtag (fuel : Nat) (l l2 pre post : List Char)
    (ast : List HtmlAst)
    (h : l.dropWhile Char.isWhitespace = '<' :: l2)
    (hhead : l2.head? = some '/')
    (hsplit : l2 = pre ++ '>' :: post) (hpre : '>' ∉ pre) :
    tokListLoop (fuel + 1) (some l) ast =
      tokListLoop fuel (some post) (ast ++ [HtmlAst.EndTag]) := by
  have hfind : findPos '>' l2 = some pre.length := by
    rw [hsplit]; exact findPos_append _ _ _ hpre
  have hdrop : l2.drop (pre.length + 1) = post := by
    rw [hsplit]; exact List.drop_append 1
  simp only [tokListLoop, h, hhead, hfind, hdrop, if_pos]

/-- One tokenizer iteration on a start tag `<tag ...>`. -/
theorem tokList_step_starttag (fuel : Nat) (l l2 pre post : List Char)
    (ast : List HtmlAst)
    (h : l.dropWhile Char.isWhitespace = '<' :: l2)
    (hhead1 : l2.head? ≠ some '/') (hhead2 : l2.head? ≠ some '!')
    (hsplit : l2 = pre ++ '>' :: post) (hpre : '>' ∉ pre) :
    tokListLoop (fuel + 1) (some l) ast =
      tokListLoop fuel (some post) (ast ++ startTagTokens pre) := by
  have hfind : findPos '>' l2 = some pre.length := by
    rw [hsplit]; exact findPos_append _ _ _ hpre
  have hdrop : l2.drop (pre.length + 1) = post := by
    rw [hsplit]; exact List.drop_append 1
  have htake : l2.take pre.length = pre := by
    rw [hsplit]; exact List.take_left _ _
  simp only [tokListLoop, h, if_neg hhead1, if_neg hhead2, hfind, hdrop, htake,
    if_pos]

/-- One tokenizer iteration on a text run: the cursor is left at the `<`. -/
theorem tokList_step_text (fuel : Nat) (l l2 pre post : List Char) (c : Char)
    (ast : List HtmlAst)
    (h : l.dropWhile Char.isWhitespace = c :: l2) (hc : c ≠ '<')
    (hsplit : c :: l2 = pre ++ '<' :: post) (hpre : '<' ∉ pre) :
    tokListLoop (fuel + 1) (some l) ast =
      tokListLoop fuel (some ('<' :: post)) (ast ++ [HtmlAst.Text pre]) := by
  have hfind : findPos '<' (c :: l2) = some pre.length := by
    rw [hsplit]; exact findPos_append _ _ _ hpre
  have hdrop : (c :: l2).drop pre.length = '<' :: post := by
    rw [hsplit]; exact List.drop_left _ _
  have htake : (c :: l2).take pre.length = pre := by
    rw [hsplit]; exact List.take_left _ _
  simp only [tokListLoop, h, if_neg hc, hfind, hdrop, htake]

/-! ## Claim C2: skipping past the end -/

/-- C2 counterexample: advancing past the end is **not** benign.  Rust's
`&data[pos..]` panics when `pos > len`, so `rest` (and with it every
subsequent read) aborts abnormally instead of reporting EOF; in particular
tokenizing `"<!"` (a comment reaching EOF) drives the position to `len + 1`
and the next loop iteration panics instead of observing EOF. -/
theorem c2_counterexample :
    tokenize_html "<!".toList = PResult.panic ∧
    ((StrReader.new "ab".toList).skip 3).rest = none :=
  ⟨rfl, rfl⟩

/-- C2 (amended): `skip(n)` advances the position by `n` unconditionally.
Advancing exactly to the end is legal: subsequent reads report EOF (`seek`
yields no character, `rest` is empty, `read_until` fails with
`DelimNotFound`, `skip_while` stops immediately).  Advancing strictly past
the end makes every subsequent read operation panic (modelled `none`), which
is what happens after tokenizing `"<!"`. -/
theorem c2_theorem (r : StrReader) (n : Nat) (d : Char) (f : Char → Bool) :
    ((r.skip n).pos = r.pos + n) ∧
    (r.pos = r.data.length →
      r.seek = some none ∧ r.rest = some [] ∧
      r.read_until d = some (Except.error ReadError.DelimNotFound, r) ∧
      r.skip_while f = some r) ∧
    (r.data.length < r.pos →
      r.rest = none ∧ r.seek = none ∧ r.read_until d = none ∧
      r.skip_while f = none) := by
  refine ⟨rfl, fun hend => ?_, fun hpast => ?_⟩
  · have hrest : r.rest = some [] := by
      rw [StrReader.rest, if_pos (le_of_eq hend), hend, List.drop_length]
    refine ⟨?_, hrest, ?_, ?_⟩
    · rw [StrReader.seek, hrest]; rfl
    · rw [StrReader.read_until, hrest]; rfl
    · rw [StrReader.skip_while, hrest]
      simp [StrReader.skip_while_go]
  · have hrest : r.rest = none := by
      rw [StrReader.rest, if_neg (by omega)]
    exact ⟨hrest, by rw [StrReader.seek, hrest]; rfl,
      by rw [StrReader.read_until, hrest]; rfl,
      by rw [StrReader.skip_while, hrest]; rfl⟩

/-- Witness for C2's amended theorem at concrete reader states. -/
theorem c2_witness :
    ((StrReader.new "ab".toList).skip 2).seek = some none ∧
    ((StrReader.new "ab".toList).skip 3).seek = none := by
  constructor
  · exact ((c2_theorem ((StrReader.new "ab".toList).skip 2) 0 '<'
      Char.isWhitespace).2.1 (by decide)).1
  · exact ((c2_theorem ((StrReader.new "ab".toList).skip 3) 0 '<'
      Char.isWhitespace).2.2 (by decide)).2.1

/-! ## Claim C9: `read_until` -/

/-- C9: for every valid cursor state (position within bounds, so that "the
remaining input" exists) and delimiter: if the delimiter occurs in the
remainder, `read_until` returns the span strictly before its first
occurrence and leaves the position exactly at the delimiter; otherwise it
fails with `DelimNotFound` and leaves the reader unchanged.  Stated for both
`StrReader` and the generic `SliceReader`. -/
theorem c9_theorem :
    (∀ (r : StrReader) (d : Char), r.pos ≤ r.data.length →
      (∀ pre post, r.data.drop r.pos = pre ++ d :: post → d ∉ pre →
        r.read_until d = some (Except.ok pre, ⟨r.pos + pre.length, r.data⟩) ∧
        r.data.drop (r.pos + pre.length) = d :: post) ∧
      (d ∉ r.data.drop r.pos →
        r.read_until d = some (Except.error ReadError.DelimNotFound, r))) ∧
    (∀ (α : Type) [DecidableEq α] (r : SliceReader α) (d : α),
      r.pos ≤ r.data.length →
      (∀ pre post, r.data.drop r.pos = pre ++ d :: post → d ∉ pre →
        r.read_until d = some (Except.ok pre, ⟨r.pos + pre.length, r.data⟩) ∧
        r.data.drop (r.pos + pre.length) = d :: post) ∧
      (d ∉ r.data.drop r.pos →
        r.read_until d = some (Except.error ReadError.DelimNotFound, r))) := by
  constructor
  · intro r d hle
    have hrest : r.rest = some (r.data.drop r.pos) := by
      rw [StrReader.rest, if_pos hle]
    constructor
    · intro pre post hsplit hpre
      have hfind : findPos d (r.data.drop r.pos) = some pre.length := by
        rw [hsplit]; exact findPos_append d pre post hpre
      have htake : (r.data.drop r.pos).take pre.length = pre := by
        rw [hsplit]; exact List.take_left pre (d :: post)
      constructor
      · rw [StrReader.read_until, hrest, Option.map_some', hfind]
        simp only [htake]
      · rw [← List.drop_drop, hsplit]
        exact List.drop_left pre (d :: post)
    · intro hmem
      rw [StrReader.read_until, hrest, Option.map_some', findPos_eq_none hmem]
  · intro α _ r d hle
    have hrest : r.rest = some (r.data.drop r.pos) := by
      rw [SliceReader.rest, if_pos hle]
    constructor
    · intro pre post hsplit hpre
      have hfind : findPos d (r.data.drop r.pos) = some pre.length := by
        rw [hsplit]; exact findPos_append d pre post hpre
      have htake : (r.data.drop r.pos).take pre.length = pre := by
        rw [hsplit]; exact List.take_left pre (d :: post)
      constructor
      · rw [SliceReader.read_until, hrest, Option.map_some', hfind]
        simp only [htake]
      · rw [← List.drop_drop, hsplit]
        exact List.drop_left pre (d :: post)
    · intro hmem
      rw [SliceReader.read_until, hrest, Option.map_some', findPos_eq_none hmem]

/-- Witness for C9 at the repository's own reader test (`"Hello World"`,
delimiter `' '`), in both the found and the not-found case. -/
theorem c9_witness :
    (StrReader.new "Hello World".toList).read_until ' ' =
      some (Except.ok "Hello".toList, ⟨5, "Hello World".toList⟩) ∧
    (StrReader.new "Hello".toList).read_until ' ' =
      some (Except.error ReadError.DelimNotFound, StrReader.new "Hello".toList) := by
  constructor
  · exact (((c9_theorem.1 (StrReader.new "Hello World".toList) ' ' (by decide)).1
      "Hello".toList "World".toList (by decide) (by decide)).1)
  · exact (c9_theorem.1 (StrReader.new "Hello".toList) ' ' (by decide)).2 (by decide)

/-! ## Claim C5: bare text / token streams starting with Attribute or Text -/

/-- C5 counterexample: on the bare input `"text"` the tokenizer itself fails
(`read_until('<')` finds no `<` before EOF), so `tokenize` does **not**
succeed with a `Text` token, and `parse` reports the wrapped reader error,
not `InvalidAst`. -/
theorem c5_counterexample :
    tokenize_html "text".toList =
      PResult.error (HtmlError.ReaderError ReadError.DelimNotFound) ∧
    parse_html "text".toList =
      PResult.error (HtmlError.ReaderError ReadError.DelimNotFound) :=
  ⟨rfl, rfl⟩

/-- C5 (amended): bare text followed by no `<` fails already in the tokenizer
with the delimiter-not-found reader error; a token stream beginning with an
`Attribute` or `Text` token does make the builder return `InvalidAst`, and an
input such as `"text<a></a>"` (whose tokenizer succeeds with a leading `Text`
token) makes `parse` return `InvalidAst`. -/
theorem c5_theorem :
    (∀ (name : List Char) (value : Option (List Char)) (ts : List HtmlAst),
      buildLoop (HtmlAst.Attribute name value :: ts) [] [] =
        PResult.error HtmlError.InvalidAst) ∧
    (∀ (text : List Char) (ts : List HtmlAst),
      buildLoop (HtmlAst.Text text :: ts) [] [] =
        PResult.error HtmlError.InvalidAst) ∧
    parse_html "text<a></a>".toList = PResult.error HtmlError.InvalidAst :=
  ⟨fun _ _ _ => rfl, fun _ _ => rfl, rfl⟩

/-! ## Claim C7: final stack check -/

/-- C7: if the token stream of an input is processed to the end (no early
exit), the parse result is the accumulated forest when the final stack is
empty and `InvalidAst` when unclosed elements remain. -/
theorem c7_theorem :
    ∀ (data : List Char) (ts : List HtmlAst) (stk els : List HtmlElement),
      tokenize_html data = PResult.ok ts →
      buildRun ts [] [] = some (stk, els) →
      parse_html data =
        (if stk.isEmpty then PResult.ok els else PResult.error HtmlError.InvalidAst) := by
  have key : ∀ (ts : List HtmlAst) (stack elements stk els : List HtmlElement),
      buildRun ts stack elements = some (stk, els) →
      buildLoop ts stack elements =
        (if stk.isEmpty then PResult.ok els else PResult.error HtmlError.InvalidAst) := by
    intro ts
    induction ts with
    | nil =>
      intro stack elements stk els h
      simp only [buildRun, Option.some.injEq, Prod.mk.injEq] at h
      rw [h.1, h.2]
      rfl
    | cons t ts ih =>
      intro stack elements stk els h
      cases t with
      | StartTag tag => exact ih _ _ _ _ h
      | Attribute name value =>
        cases stack with
        | nil => exact absurd h (by simp [buildRun])
        | cons e rest => exact ih _ _ _ _ h
      | EndTag =>
        cases stack with
        | nil => exact absurd h (by simp [buildRun])
        | cons e rest =>
          cases rest with
          | nil => exact ih _ _ _ _ h
          | cons parent rest2 => exact ih _ _ _ _ h
      | Text text =>
        cases stack with
        | nil => exact absurd h (by simp [buildRun])
        | cons e rest => exact ih _ _ _ _ h
  intro data ts stk els htok hrun
  rw [parse_html, htok]
  exact key ts [] [] stk els hrun

/-- Witness for C7 at the unclosed input `"<div><button>"`. -/
theorem c7_witness :
    parse_html "<div><button>".toList = PResult.error HtmlError.InvalidAst := by
  have h := c7_theorem "<div><button>".toList
    [HtmlAst.StartTag "div".toList, HtmlAst.StartTag "button".toList]
    [HtmlElement.new "button".toList, HtmlElement.new "div".toList] [] rfl rfl
  simpa using h

/-! ## Claim C10: later Text tokens overwrite the inner text -/

/-- C10: processing a `Text` token sets (overwrites) the top element's inner
text, so two consecutive `Text` tokens behave like the second alone, and in
`"<div>a<b></b>c</div>"` only the last text run `"c"` is retained while `"a"`
is silently dropped. -/
theorem c10_theorem :
    (∀ (a b : List Char) (ts : List HtmlAst) (e : HtmlElement)
       (stk els : List HtmlElement),
      buildLoop (HtmlAst.Text a :: HtmlAst.Text b :: ts) (e :: stk) els =
        buildLoop (HtmlAst.Text b :: ts) (e :: stk) els) ∧
    parse_html "<div>a<b></b>c</div>".toList =
      PResult.ok [⟨"div".toList, [], [⟨"b".toList, [], [], none⟩], some "c".toList⟩] :=
  ⟨fun _ _ _ _ _ _ => rfl, rfl⟩

/-! ## Claim C1: strictness is violated by a panic -/

/-- C1 counterexample: an `EndTag` while no element is open does **not**
produce an error value — `Vec::remove(0)` on the empty stack panics, so
`parse_html "</div>"` aborts abnormally. -/
theorem c1_counterexample : parse_html "</div>".toList = PResult.panic := rfl

/-- C1 (amended): the tree builder never panics on token streams whose
`EndTag`s never outnumber the previously opened elements; on every other
token-level malformation it returns a single error value.  (An `EndTag`
meeting an empty stack — e.g. the stream of `"</div>"` — panics instead.) -/
theorem c1_theorem :
    ∀ (ts : List HtmlAst) (stack elements : List HtmlElement),
      noUnderflow stack.length ts = true →
      buildLoop ts stack elements ≠ PResult.panic := by
  intro ts
  induction ts with
  | nil =>
    intro stack elements _
    cases stack <;> simp [buildLoop]
  | cons t ts ih =>
    intro stack elements h
    cases t with
    | StartTag tag =>
      simp only [noUnderflow] at h
      exact ih (HtmlElement.new tag :: stack) elements h
    | Attribute name value =>
      cases stack with
      | nil => simp [buildLoop]
      | cons e rest =>
        simp only [noUnderflow] at h
        exact ih _ _ h
    | EndTag =>
      simp only [noUnderflow, Bool.and_eq_true, decide_eq_true_eq] at h
      cases stack with
      | nil => simp at h
      | cons e rest =>
        cases rest with
        | nil => exact ih [] (elements ++ [e]) h.2
        | cons parent rest2 => exact ih _ elements h.2
    | Text text =>
      cases stack with
      | nil => simp [buildLoop]
      | cons e rest =>
        simp only [noUnderflow] at h
        exact ih _ _ h

/-- Witness for C1's amended theorem on a balanced token stream. -/
theorem c1_witness :
    buildLoop [HtmlAst.StartTag "a".toList, HtmlAst.EndTag] [] [] ≠ PResult.panic :=
  c1_theorem [HtmlAst.StartTag "a".toList, HtmlAst.EndTag] [] [] (by decide)

/-! ## Claim C4: attribute fragment splitting -/

/-- C4 counterexample: in the fragment `x="b` the quote before `b` is
unmatched, yet `trim_matches('"')` strips it anyway, so the Attribute value
is `b`, not `"b` as the claim ("unmatched quote characters at the ends of
the value are retained") predicts. -/
theorem c4_counterexample :
    tokenize_html "<a x=\"b>y</a>".toList =
      PResult.ok [HtmlAst.StartTag "a".toList,
        HtmlAst.Attribute "x".toList (some "b".toList),
        HtmlAst.Text "y".toList, HtmlAst.EndTag] ∧
    ¬ tokenize_html "<a x=\"b>y</a>".toList =
      PResult.ok [HtmlAst.StartTag "a".toList,
        HtmlAst.Attribute "x".toList (some ('"' :: "b".toList)),
        HtmlAst.Text "y".toList, HtmlAst.EndTag] :=
  ⟨rfl, by decide⟩

/-- C4 (amended): a fragment containing `=` is split at its first `=`; the
name is the prefix with surrounding whitespace stripped, and the value is the
text after the `=` with surrounding whitespace stripped and then **all**
leading and trailing double-quote characters removed (matched or not); a
fragment without `=` yields a valueless attribute with the trimmed fragment
as name. -/
theorem c4_theorem :
    (∀ (n v : List Char), '=' ∉ n →
      attrToken (n ++ '=' :: v) =
        HtmlAst.Attribute (trim n) (some (trimMatches '"' (trim v)))) ∧
    (∀ f : List Char, '=' ∉ f → attrToken f = HtmlAst.Attribute (trim f) none) := by
  constructor
  · intro n v hn
    have hdrop : (n ++ '=' :: v).drop (n.length + 1) = v := List.drop_append 1
    simp only [attrToken, findPos_append '=' n v hn, List.take_left,
      Option.map_some', hdrop]
  · intro f hf
    simp only [attrToken, findPos_eq_none hf]
    rfl

/-- Witness for C4's amended theorem at the fragment `x="b`. -/
theorem c4_witness :
    attrToken "x=\"b".toList =
      HtmlAst.Attribute "x".toList (some "b".toList) := by
  have h := c4_theorem.1 "x".toList "\"b".toList (by decide)
  exact h

/-! ## Claim C6: unterminated trailing text -/

/-- C6: whenever the tokenizer loop runs with the cursor on ordinary text
(current item neither `<` nor whitespace) and no `<` occurs in the remaining
input, it fails with the delimiter-not-found reader error instead of emitting
a trailing `Text` token. -/
theorem c6_theorem (fuel : Nat) (r : StrReader) (acc : List HtmlAst) (c : Char)
    (hseek : r.seek = some (some c)) (hws : c.isWhitespace = false)
    (hlt : c ≠ '<') (hnomem : '<' ∉ r.data.drop r.pos) :
    tokenizeLoop (fuel + 1) r acc =
      PResult.error (HtmlError.ReaderError ReadError.DelimNotFound) := by
  have hle : r.pos ≤ r.data.length := by
    by_contra hgt
    rw [StrReader.seek, StrReader.rest, if_neg hgt] at hseek
    cases hseek
  have hrest : r.rest = some (r.data.drop r.pos) := by
    rw [StrReader.rest, if_pos hle]
  have hhead : (r.data.drop r.pos).head? = some c := by
    rw [StrReader.seek, hrest, Option.map_some'] at hseek
    exact Option.some.inj hseek
  obtain ⟨l', hl'⟩ : ∃ l', r.data.drop r.pos = c :: l' := by
    cases hd : r.data.drop r.pos with
    | nil => rw [hd] at hhead; cases hhead
    | cons a l'' =>
      rw [hd] at hhead
      have hac : a = c := Option.some.inj hhead
      exact ⟨l'', by rw [hac]⟩
  have hsw : r.skip_while Char.isWhitespace = some r := by
    rw [StrReader.skip_while, hrest, Option.map_some', hl']
    simp [StrReader.skip_while_go, hws]
  have hru : r.read_until '<' = some (Except.error ReadError.DelimNotFound, r) := by
    rw [StrReader.read_until, hrest, Option.map_some', findPos_eq_none hnomem]
  simp only [tokenizeLoop, hsw, hseek, if_neg hlt, hru]

/-- Witness for C6 at the reader state positioned on the input `"ab"`. -/
theorem c6_witness :
    tokenizeLoop 1 (StrReader.new "ab".toList) [] =
      PResult.error (HtmlError.ReaderError ReadError.DelimNotFound) :=
  c6_theorem 0 (StrReader.new "ab".toList) [] 'a' (by decide) (by decide)
    (by decide) (by decide)

/-! ## Claim C8: close tags pop regardless of their lexical name -/

/-- C8: `EndTag` tokens carry no name, so a close tag pops whatever element
is on top of the open-element stack regardless of the closing tag's lexical
name: for every name (not containing `>`), `"<div>x</" ++ name ++ ">"` parses
successfully to a single `div` element with inner text `x` — mismatched
nesting such as `"<div>x</span>"` is never detected as an error. -/
theorem c8_theorem (name : List Char) (hname : '>' ∉ name) :
    parse_html ("<div>x</".toList ++ name ++ ['>']) =
      PResult.ok [⟨"div".toList, [], [], some "x".toList⟩] := by
  have hlen : ("<div>x</".toList ++ name ++ ['>']).length = name.length + 9 := by
    simp only [List.length_append]
    norm_num
    omega
  have e1 : tokListLoop (name.length + 10 + 1)
      (some ("<div>x</".toList ++ name ++ ['>'])) [] =
      tokListLoop (name.length + 10)
        (some ("x</".toList ++ name ++ ['>']))
        ([] ++ startTagTokens "div".toList) :=
    tokList_step_starttag (name.length + 10) _
      ("div>x</".toList ++ name ++ ['>']) "div".toList
      ("x</".toList ++ name ++ ['>']) [] rfl
      (fun hcon => absurd (Option.some.inj hcon) (by decide))
      (fun hcon => absurd (Option.some.inj hcon) (by decide))
      rfl (by decide)
  have e2 : tokListLoop (name.length + 9 + 1)
      (some ("x</".toList ++ name ++ ['>']))
      ([] ++ startTagTokens "div".toList) =
      tokListLoop (name.length + 9)
        (some ('<' :: ("/".toList ++ name ++ ['>'])))
        (([] ++ startTagTokens "div".toList) ++ [HtmlAst.Text "x".toList]) :=
    tokList_step_text (name.length + 9) _
      ("</".toList ++ name ++ ['>']) "x".toList
      ("/".toList ++ name ++ ['>']) 'x' _ rfl (by decide) rfl (by decide)
  have e3 : tokListLoop (name.length + 8 + 1)
      (some ('<' :: ("/".toList ++ name ++ ['>'])))
      (([] ++ startTagTokens "div".toList) ++ [HtmlAst.Text "x".toList]) =
      tokListLoop (name.length + 8) (some [])
        ((([] ++ startTagTokens "div".toList) ++ [HtmlAst.Text "x".toList])
          ++ [HtmlAst.EndTag]) :=
    tokList_step_endtag (name.length + 8) _
      ("/".toList ++ name ++ ['>']) ('/' :: name) [] _ rfl rfl
      (by rw [show ("/".toList ++ name ++ ['>']) = ('/' :: name) ++ '>' :: []
            from by simp])
      (by
        intro hmem
        rcases List.mem_cons.mp hmem with h1 | h2
        · cases h1
        · exact hname h2)
  have e4 : tokListLoop (name.length + 7 + 1) (some [])
      ((([] ++ startTagTokens "div".toList) ++ [HtmlAst.Text "x".toList])
        ++ [HtmlAst.EndTag]) =
      PResult.ok ((([] ++ startTagTokens "div".toList)
        ++ [HtmlAst.Text "x".toList]) ++ [HtmlAst.EndTag]) :=
    tokList_step_done (name.length + 7) [] _ rfl
  have htok : tokenize_html ("<div>x</".toList ++ name ++ ['>']) =
      PResult.ok [HtmlAst.StartTag "div".toList, HtmlAst.Text "x".toList,
        HtmlAst.EndTag] := by
    rw [tokenize_html_eq_tokList, hlen,
      show name.length + 9 + 2 = name.length + 10 + 1 from by omega, e1,
      show name.length + 10 = name.length + 9 + 1 from by omega, e2,
      show name.length + 9 = name.length + 8 + 1 from by omega, e3,
      show name.length + 8 = name.length + 7 + 1 from by omega, e4]
    decide
  simp only [parse_html, htok]
  rfl

/-- Witness for C8 at the mismatched input `"<div>x</span>"`. -/
theorem c8_witness :
    parse_html "<div>x</span>".toList =
      PResult.ok [⟨"div".toList, [], [], some "x".toList⟩] := by
  have h := c8_theorem "span".toList (by decide)
  exact h

/-! ## Infrastructure for the round-trip theorem (C3) -/

theorem not_mem_of_all {α : Type} {x : α} {l : List α} {f : α → Bool}
    (hall : l.all f = true) (hx : f x = false) : x ∉ l := by
  intro hm
  rw [List.all_eq_true] at hall
  have := hall x hm
  rw [hx] at this
  cases this

theorem dropWhile_eq_self_of_head {f : Char → Bool} {l : List Char}
    (h : l.head?.all (fun c => !f c) = true) : l.dropWhile f = l := by
  cases l with
  | nil => rfl
  | cons a l =>
    apply dropWhile_cons_false
    rw [List.head?_cons, Option.all_some, Bool.not_eq_true'] at h
    exact h

theorem trim_eq_self {l : List Char} (h : noWsEdges l = true) : trim l = l := by
  rw [noWsEdges, Bool.and_eq_true] at h
  have h1 : l.dropWhile Char.isWhitespace = l := dropWhile_eq_self_of_head h.1
  have h2 : l.reverse.dropWhile Char.isWhitespace = l.reverse := by
    apply dropWhile_eq_self_of_head
    rw [List.head?_reverse]
    exact h.2
  rw [trim, h1, h2, List.reverse_reverse]

theorem trim_space_cons (l : List Char) : trim (' ' :: l) = trim l := by
  rw [trim, trim, List.dropWhile_cons]
  simp only [Char.isWhitespace]
  rfl

theorem trimMatches_wrap {v : List Char}
    (hh : v.head?.all (fun c => !(c = '"')) = true)
    (hl : v.getLast?.all (fun c => !(c = '"')) = true) :
    trimMatches '"' ('"' :: v ++ ['"']) = v := by
  have h1 : ('"' :: v ++ ['"']).dropWhile (· = '"') = (v ++ ['"']).dropWhile (· = '"') := by
    rw [List.cons_append, List.dropWhile_cons]
    simp
  cases v with
  | nil => rfl
  | cons a t =>
    have ha : (decide (a = '"')) = false := by
      rw [List.head?_cons, Option.all_some, Bool.not_eq_true'] at hh
      exact hh
    have h2 : ((a :: t) ++ ['"']).dropWhile (· = '"') = (a :: t) ++ ['"'] := by
      rw [List.cons_append]
      exact dropWhile_cons_false ha
    have h3 : ((a :: t) ++ ['"']).reverse = '"' :: (a :: t).reverse := by
      rw [List.reverse_append]
      rfl
    have h4 : ('"' :: (a :: t).reverse).dropWhile (· = '"') = (a :: t).reverse := by
      rw [List.dropWhile_cons]
      simp only [decide_True, if_true]
      apply dropWhile_eq_self_of_head
      rw [List.head?_reverse]
      simpa using hl
    rw [trimMatches, h1, h2, h3, h4, List.reverse_reverse]

theorem splitOnChar_no_sep {sep : Char} :
    ∀ {pre : List Char}, sep ∉ pre → splitOnChar sep pre = [pre] := by
  intro pre
  induction pre with
  | nil => intro _; rfl
  | cons c l ih =>
    intro h
    simp only [List.mem_cons, not_or] at h
    rw [splitOnChar]
    simp only [if_neg (fun hcs : c = sep => h.1 hcs.symm)]
    rw [ih h.2]

theorem splitOnChar_append_sep {sep : Char} :
    ∀ {pre l : List Char}, sep ∉ pre →
      splitOnChar sep (pre ++ sep :: l) = pre :: splitOnChar sep l := by
  intro pre
  induction pre with
  | nil =>
    intro l _
    rw [List.nil_append, splitOnChar]
    simp
  | cons c p ih =>
    intro l h
    simp only [List.mem_cons, not_or] at h
    rw [List.cons_append, splitOnChar]
    simp only [if_neg (fun hcs : c = sep => h.1 hcs.symm)]
    rw [ih h.2]

theorem attrFragment_chars {a : HtmlAttribute} (h : wfAttr a = true) :
    ∀ x ∈ attrFragment a, ¬(x = ' ') ∧ ¬(x = '>') := by
  rw [wfAttr, Bool.and_eq_true] at h
  obtain ⟨hn, hv⟩ := h
  rw [wfName, Bool.and_eq_true] at hn
  have hnall := hn.1
  rw [List.all_eq_true] at hnall
  intro x hx
  cases hva : a.value with
  | none =>
    simp only [attrFragment, hva] at hx
    have hme := hnall x hx
    simp only [Bool.and_eq_true, Bool.not_eq_true', decide_eq_false_iff_not] at hme
    exact ⟨hme.1.1, hme.1.2⟩
  | some v =>
    simp only [attrFragment, hva] at hx
    rw [hva, Option.all_some, wfValue] at hv
    simp only [Bool.and_eq_true] at hv
    have hvall := hv.1.1.1
    rw [List.all_eq_true] at hvall
    rcases List.mem_append.mp hx with hx | hx
    · rcases List.mem_append.mp hx with hx | hx
      · have hme := hnall x hx
        simp only [Bool.and_eq_true, Bool.not_eq_true', decide_eq_false_iff_not] at hme
        exact ⟨hme.1.1, hme.1.2⟩
      · rcases List.mem_cons.mp hx with hx | hx
        · rw [hx]; exact ⟨by decide, by decide⟩
        · rcases List.mem_cons.mp hx with hx | hx
          · rw [hx]; exact ⟨by decide, by decide⟩
          · have hme := hvall x hx
            simp only [Bool.and_eq_true, Bool.not_eq_true', decide_eq_false_iff_not] at hme
            exact ⟨hme.1, hme.2⟩
    · rcases List.mem_cons.mp hx with hx | hx
      · rw [hx]; exact ⟨by decide, by decide⟩
      · cases hx

theorem space_not_mem_attrFragment {a : HtmlAttribute} (h : wfAttr a = true) :
    ' ' ∉ attrFragment a :=
  fun hm => (attrFragment_chars h ' ' hm).1 rfl

theorem gt_not_mem_attrFragment {a : HtmlAttribute} (h : wfAttr a = true) :
    '>' ∉ attrFragment a :=
  fun hm => (attrFragment_chars h '>' hm).2 rfl

theorem attrsRegion_nil : attrsRegion [] = [] := rfl

theorem attrsRegion_cons (a : HtmlAttribute) (l : List HtmlAttribute) :
    attrsRegion (a :: l) = ' ' :: (attrFragment a ++ attrsRegion l) := by
  rw [attrsRegion, List.map_cons, List.flatten_cons, List.cons_append]
  rfl

theorem gt_not_mem_attrsRegion {l : List HtmlAttribute} (h : l.all wfAttr = true) :
    '>' ∉ attrsRegion l := by
  induction l with
  | nil => rw [attrsRegion_nil]; exact List.not_mem_nil '>'
  | cons a t ih =>
    rw [List.all_cons, Bool.and_eq_true] at h
    rw [attrsRegion_cons]
    intro hm
    rcases List.mem_cons.mp hm with hm | hm
    · cases hm
    · rcases List.mem_append.mp hm with hm | hm
      · exact gt_not_mem_attrFragment h.1 hm
      · exact ih h.2 hm

theorem splitOnChar_fragments :
    ∀ (l : List HtmlAttribute) (a : HtmlAttribute),
      wfAttr a = true → l.all wfAttr = true →
      splitOnChar ' ' (attrFragment a ++ attrsRegion l) =
        attrFragment a :: l.map attrFragment := by
  intro l
  induction l with
  | nil =>
    intro a ha _
    rw [attrsRegion_nil, List.append_nil, List.map_nil]
    exact splitOnChar_no_sep (space_not_mem_attrFragment ha)
  | cons b t ih =>
    intro a ha hall
    rw [List.all_cons, Bool.and_eq_true] at hall
    rw [attrsRegion_cons, splitOnChar_append_sep (space_not_mem_attrFragment ha),
      ih b hall.1 hall.2, List.map_cons]

theorem attrFragment_eq_nil_iff {a : HtmlAttribute} :
    attrFragment a = [] ↔ emptyFrag a = true := by
  cases hv : a.value with
  | none =>
    simp only [attrFragment, hv, emptyFrag, Option.isNone, Bool.and_true]
    simp [List.isEmpty_iff]
  | some v =>
    simp only [attrFragment, hv, emptyFrag, Option.isNone, Bool.and_false]
    constructor
    · intro hcon
      exfalso
      cases hn : a.name with
      | nil => rw [hn, List.nil_append] at hcon; cases hcon
      | cons c t => rw [hn, List.cons_append] at hcon; cases hcon
    · intro hcon
      cases hcon

theorem attrFragment_head_nonWs {a : HtmlAttribute} (h : wfAttr a = true) :
    ((attrFragment a).head?.all fun c => !c.isWhitespace) = true := by
  rw [wfAttr, Bool.and_eq_true] at h
  obtain ⟨hn, hv⟩ := h
  rw [wfName, Bool.and_eq_true, noWsEdges, Bool.and_eq_true] at hn
  have hhd := hn.2.1
  cases hva : a.value with
  | none => simp only [attrFragment, hva]; exact hhd
  | some v =>
    simp only [attrFragment, hva]
    cases hname : a.name with
    | nil => rfl
    | cons c t =>
      rw [List.cons_append, List.cons_append, List.head?_cons, Option.all_some]
      rw [hname, List.head?_cons, Option.all_some] at hhd
      exact hhd

theorem attrFragment_last_nonWs {a : HtmlAttribute} (h : wfAttr a = true) :
    ((attrFragment a).getLast?.all fun c => !c.isWhitespace) = true := by
  rw [wfAttr, Bool.and_eq_true] at h
  obtain ⟨hn, hv⟩ := h
  rw [wfName, Bool.and_eq_true, noWsEdges, Bool.and_eq_true] at hn
  have hlast := hn.2.2
  cases hva : a.value with
  | none => simp only [attrFragment, hva]; exact hlast
  | some v =>
    simp only [attrFragment, hva]
    have hshape : a.name ++ '=' :: '"' :: v ++ ['"']
        = (a.name ++ '=' :: '"' :: v) ++ ['"'] := by
      simp [List.append_assoc]
    rw [hshape, List.getLast?_concat, Option.all_some]
    decide

theorem noWsEdges_attrFragment {a : HtmlAttribute} (h : wfAttr a = true) :
    noWsEdges (attrFragment a) = true := by
  rw [noWsEdges, Bool.and_eq_true]
  exact ⟨attrFragment_head_nonWs h, attrFragment_last_nonWs h⟩

theorem getLast?_append_right {x y : List Char} (hy : y ≠ []) :
    (x ++ y).getLast? = y.getLast? := by
  rw [List.getLast?_append, Option.or_of_isSome (List.getLast?_isSome.mpr hy)]

theorem getLast?_attrsRegion :
    ∀ {t : List HtmlAttribute}, t.all wfAttr = true →
      (t.getLast?.all fun b => !emptyFrag b) = true → t ≠ [] →
      ((attrsRegion t).getLast?.all fun c => !c.isWhitespace) = true := by
  intro t
  induction t with
  | nil => intro _ _ hcon; exact absurd rfl hcon
  | cons b t' ih =>
    intro hall hlast _
    rw [List.all_cons, Bool.and_eq_true] at hall
    rw [attrsRegion_cons]
    cases t' with
    | nil =>
      simp only [List.getLast?_cons, List.getLast?_nil, Option.getD_none,
        Option.all_some, Bool.not_eq_true'] at hlast
      have hfb : attrFragment b ≠ [] := by
        intro hcon
        rw [attrFragment_eq_nil_iff.mp hcon] at hlast
        cases hlast
      rw [attrsRegion_nil, List.append_nil,
        show (' ' :: attrFragment b) = [' '] ++ attrFragment b from rfl,
        getLast?_append_right hfb]
      exact attrFragment_last_nonWs hall.1
    | cons c t2 =>
      have hreg_ne : attrsRegion (c :: t2) ≠ [] := by
        rw [attrsRegion_cons]
        exact List.cons_ne_nil _ _
      have hjoin_ne : attrFragment b ++ attrsRegion (c :: t2) ≠ [] := by
        intro hcon
        exact hreg_ne (List.append_eq_nil.mp hcon).2
      rw [show (' ' :: (attrFragment b ++ attrsRegion (c :: t2)))
            = [' '] ++ (attrFragment b ++ attrsRegion (c :: t2)) from rfl,
        getLast?_append_right hjoin_ne, getLast?_append_right hreg_ne]
      rw [List.getLast?_cons_cons] at hlast
      exact ih hall.2 hlast (List.cons_ne_nil _ _)

theorem noWsEdges_join {a : HtmlAttribute} {t : List HtmlAttribute}
    (ha : wfAttr a = true) (hall : t.all wfAttr = true)
    (hfirst : t ≠ [] → emptyFrag a = false)
    (hlast : (t.getLast?.all fun b => !emptyFrag b) = true) :
    noWsEdges (attrFragment a ++ attrsRegion t) = true := by
  cases t with
  | nil => rw [attrsRegion_nil, List.append_nil]; exact noWsEdges_attrFragment ha
  | cons b t' =>
    rw [noWsEdges, Bool.and_eq_true]
    constructor
    · have hane : attrFragment a ≠ [] := by
        intro hcon
        have he := attrFragment_eq_nil_iff.mp hcon
        rw [hfirst (List.cons_ne_nil _ _)] at he
        cases he
      cases hfa : attrFragment a with
      | nil => exact absurd hfa hane
      | cons c fr =>
        rw [List.cons_append, List.head?_cons]
        have hh := attrFragment_head_nonWs ha
        rw [hfa, List.head?_cons] at hh
        exact hh
    · have hreg_ne : attrsRegion (b :: t') ≠ [] := by
        rw [attrsRegion_cons]
        exact List.cons_ne_nil _ _
      rw [getLast?_append_right hreg_ne]
      exact getLast?_attrsRegion hall hlast (List.cons_ne_nil _ _)

theorem attrToken_fragment {a : HtmlAttribute} (h : wfAttr a = true) :
    attrToken (attrFragment a) = HtmlAst.Attribute a.name a.value := by
  rw [wfAttr, Bool.and_eq_true] at h
  obtain ⟨hn, hv⟩ := h
  rw [wfName, Bool.and_eq_true] at hn
  have heq_not : '=' ∉ a.name := not_mem_of_all hn.1 (by decide)
  cases hva : a.value with
  | none =>
    simp only [attrFragment, hva, attrToken, findPos_eq_none heq_not]
    rw [trim_eq_self hn.2]
    rfl
  | some v =>
    rw [hva, Option.all_some, wfValue] at hv
    simp only [Bool.and_eq_true] at hv
    have hshape : (a.name ++ '=' :: '"' :: v) ++ ['"']
        = a.name ++ '=' :: ('"' :: v ++ ['"']) := by
      simp
    have hdrop : (a.name ++ '=' :: ('"' :: v ++ ['"'])).drop (a.name.length + 1)
        = '"' :: v ++ ['"'] :=
      @List.drop_append Char a.name ('=' :: ('"' :: v ++ ['"'])) 1
    have htrimv : trim ('"' :: v ++ ['"']) = '"' :: v ++ ['"'] := by
      apply trim_eq_self
      rw [noWsEdges, Bool.and_eq_true]
      constructor
      · rw [List.cons_append, List.head?_cons]
        rfl
      · rw [List.getLast?_concat]
        rfl
    simp only [attrFragment, hva, hshape, attrToken,
      findPos_append '=' a.name _ heq_not, List.take_left, hdrop,
      Option.map_some']
    rw [trim_eq_self hn.2, htrimv, trimMatches_wrap hv.1.2 hv.2]

theorem startTagTokens_serialize (tag : List Char) (attrs : List HtmlAttribute)
    (htag : wfTag tag = true) (hattrs : wfAttrs attrs = true) :
    startTagTokens (tag ++ attrsRegion attrs) =
      HtmlAst.StartTag tag :: attrs.map fun a => HtmlAst.Attribute a.name a.value := by
  rw [wfTag, Bool.and_eq_true] at htag
  have hsp_tag : ' ' ∉ tag := not_mem_of_all htag.1 (by decide)
  rw [wfAttrs, Bool.and_eq_true] at hattrs
  cases attrs with
  | nil =>
    rw [attrsRegion_nil, List.append_nil, List.map_nil, startTagTokens,
      findPos_eq_none hsp_tag]
  | cons a t =>
    rw [List.all_cons, Bool.and_eq_true] at hattrs
    obtain ⟨⟨ha, hall⟩, hedge⟩ := hattrs
    have hfirst : t ≠ [] → emptyFrag a = false := by
      intro htne
      have hlen : decide ((a :: t).length ≤ 1) = false := by
        cases t with
        | nil => exact absurd rfl htne
        | cons b t2 => simp
      rw [hlen, Bool.false_or, Bool.and_eq_true] at hedge
      have hh := hedge.1
      rw [List.head?_cons, Option.all_some, Bool.not_eq_true'] at hh
      exact hh
    have hlastfrag : (t.getLast?.all fun b => !emptyFrag b) = true := by
      cases t with
      | nil => rfl
      | cons b t2 =>
        have hlen : decide ((a :: b :: t2).length ≤ 1) = false := by simp
        rw [hlen, Bool.false_or, Bool.and_eq_true] at hedge
        have hl := hedge.2
        rw [List.getLast?_cons_cons] at hl
        exact hl
    have hjoin : noWsEdges (attrFragment a ++ attrsRegion t) = true :=
      noWsEdges_join ha hall hfirst hlastfrag
    have hmap : List.map (attrToken ∘ attrFragment) t
        = List.map (fun x => HtmlAst.Attribute x.name x.value) t := by
      apply List.map_congr_left
      intro b hb
      have hwb : wfAttr b = true := by
        rw [List.all_eq_true] at hall
        exact hall b hb
      exact attrToken_fragment hwb
    rw [attrsRegion_cons, startTagTokens, findPos_append ' ' tag _ hsp_tag]
    simp only [List.take_left, List.drop_left, trim_space_cons,
      trim_eq_self hjoin, splitOnChar_fragments t a ha hall, List.map_cons,
      List.map_map, attrToken_fragment ha, hmap]

/-- The list-level tokenizer loop is fuel-insensitive once the fuel exceeds
the length of the remaining input. -/
theorem tokList_fuel_irrel :
    ∀ (n : Nat) (l : List Char), l.length ≤ n → ∀ (ast : List HtmlAst) (f : Nat),
      l.length + 1 ≤ f →
      tokListLoop f (some l) ast = tokListLoop (l.length + 1) (some l) ast := by
  intro n
  induction n with
  | zero =>
    intro l hln ast f hf
    have hl0 : l = [] := List.length_eq_zero.mp (Nat.le_zero.mp hln)
    subst hl0
    obtain ⟨f', rfl⟩ : ∃ f', f = f' + 1 := ⟨f - 1, by omega⟩
    rw [tokList_step_done f' [] ast rfl]
    exact (tokList_step_done 0 [] ast rfl).symm
  | succ n ih =>
    intro l hln ast f hf
    obtain ⟨f', rfl⟩ : ∃ f', f = f' + 1 := ⟨f - 1, by omega⟩
    have hlen_dw : (l.dropWhile Char.isWhitespace).length ≤ l.length := by
      rw [← drop_length_takeWhile, List.length_drop]
      omega
    cases hl1 : l.dropWhile Char.isWhitespace with
    | nil => rw [tokList_step_done f' l ast hl1, tokList_step_done l.length l ast hl1]
    | cons c l2 =>
      rw [hl1] at hlen_dw
      simp only [List.length_cons] at hlen_dw
      by_cases hc : c = '<'
      · subst hc
        by_cases h1 : l2.head? = some '/'
        · cases hfind : findPos '>' l2 with
          | none =>
            simp only [tokListLoop, hl1, if_pos h1, hfind, if_pos]
          | some i =>
            have hi := findPos_lt_length hfind
            simp only [tokListLoop, hl1, if_pos h1, hfind, if_pos]
            have hd1 : (l2.drop (i + 1)).length ≤ n := by
              rw [List.length_drop]; omega
            rw [ih _ hd1 _ f' (by rw [List.length_drop]; omega),
              ih _ hd1 _ l.length (by rw [List.length_drop]; omega)]
        · by_cases h2 : l2.head? = some '!'
          · cases hl3 : (l2.drop 1).dropWhile (· ≠ '>') with
            | nil =>
              simp only [tokListLoop, hl1, if_neg h1, if_pos h2, hl3, if_pos]
              rw [tokList_none, tokList_none]
            | cons c3 rest2 =>
              have hr2 : rest2.length + 1 ≤ l2.length - 1 := by
                have hdw : ((l2.drop 1).dropWhile (· ≠ '>')).length
                    ≤ (l2.drop 1).length := by
                  rw [← drop_length_takeWhile, List.length_drop]
                  omega
                rw [hl3] at hdw
                simp only [List.length_cons, List.length_drop] at hdw
                omega
              simp only [tokListLoop, hl1, if_neg h1, if_pos h2, hl3, if_pos]
              have hd1 : rest2.length ≤ n := by omega
              rw [ih _ hd1 _ f' (by omega), ih _ hd1 _ l.length (by omega)]
          · cases hfind : findPos '>' l2 with
            | none =>
              simp only [tokListLoop, hl1, if_neg h1, if_neg h2, hfind, if_pos]
            | some i =>
              have hi := findPos_lt_length hfind
              simp only [tokListLoop, hl1, if_neg h1, if_neg h2, hfind, if_pos]
              have hd1 : (l2.drop (i + 1)).length ≤ n := by
                rw [List.length_drop]; omega
              rw [ih _ hd1 _ f' (by rw [List.length_drop]; omega),
                ih _ hd1 _ l.length (by rw [List.length_drop]; omega)]
      · cases hfind : findPos '<' (c :: l2) with
        | none => simp only [tokListLoop, hl1, if_neg hc, hfind]
        | some i =>
          have hi := findPos_lt_length hfind
          simp only [List.length_cons] at hi
          have hi1 : 1 ≤ i := by
            simp only [findPos, if_neg hc] at hfind
            cases hf2 : findPos '<' l2 with
            | none => rw [hf2] at hfind; simp at hfind
            | some j =>
              rw [hf2] at hfind
              simp only [Option.map_some'] at hfind
              injection hfind with hj
              omega
          simp only [tokListLoop, hl1, if_neg hc, hfind]
          have hd1 : ((c :: l2).drop i).length ≤ n := by
            rw [List.length_drop]
            simp only [List.length_cons]
            omega
          rw [ih _ hd1 _ f'
              (by rw [List.length_drop]; simp only [List.length_cons]; omega),
            ih _ hd1 _ l.length
              (by rw [List.length_drop]; simp only [List.length_cons]; omega)]

theorem attrsRegion_eq (l : List HtmlAttribute) :
    (l.map fun attr =>
      match attr.value with
      | some v => (' ' :: attr.name) ++ ('=' :: '"' :: v) ++ ['"']
      | none => ' ' :: attr.name).flatten = attrsRegion l := by
  rw [attrsRegion]
  congr 1
  apply List.map_congr_left
  intro a _
  cases hv : a.value with
  | none => simp only [attrFragment, hv]
  | some v =>
    simp only [attrFragment, hv, List.cons_append, List.append_assoc]

theorem serialize_if_eq (tag : List Char) (attrs : List HtmlAttribute) :
    (if attrs.length > 0 then
      ('<' :: tag) ++
        (attrs.map fun attr =>
          match attr.value with
          | some v => (' ' :: attr.name) ++ ('=' :: '"' :: v) ++ ['"']
          | none => ' ' :: attr.name).flatten ++ ['>']
    else ('<' :: tag) ++ ['>'])
      = ('<' :: tag) ++ attrsRegion attrs ++ ['>'] := by
  cases attrs with
  | nil =>
    rw [if_neg (by decide), attrsRegion_nil, List.append_nil]
  | cons a t =>
    rw [if_pos (by simp), attrsRegion_eq]

theorem starttag_step_canonical (tag : List Char) (attrs : List HtmlAttribute)
    (htag : wfTag tag = true) (hattrs : wfAttrs attrs = true)
    (post : List Char) (ast : List HtmlAst) :
    tokListLoop (('<' :: ((tag ++ attrsRegion attrs) ++ '>' :: post)).length + 1)
        (some ('<' :: ((tag ++ attrsRegion attrs) ++ '>' :: post))) ast =
      tokListLoop (post.length + 1) (some post)
        (ast ++ (HtmlAst.StartTag tag ::
          attrs.map fun a => HtmlAst.Attribute a.name a.value)) := by
  have htag1 := htag
  have hattrs1 := hattrs
  rw [wfTag, Bool.and_eq_true] at htag1
  rw [wfAttrs, Bool.and_eq_true] at hattrs1
  have hhead : ∃ c0, ((tag ++ attrsRegion attrs) ++ '>' :: post).head? = some c0 ∧
      c0 ≠ '/' ∧ c0 ≠ '!' := by
    cases htg : tag with
    | cons c tag' =>
      have hc := htag1.2
      rw [htg, List.head?_cons, Option.all_some, Bool.and_eq_true,
        Bool.not_eq_true', Bool.not_eq_true', decide_eq_false_iff_not,
        decide_eq_false_iff_not] at hc
      exact ⟨c, by rw [List.cons_append, List.cons_append, List.head?_cons],
        hc.1, hc.2⟩
    | nil =>
      cases attrs with
      | nil =>
        exact ⟨'>', by rw [attrsRegion_nil, List.append_nil, List.nil_append,
          List.head?_cons], by decide, by decide⟩
      | cons b t =>
        exact ⟨' ', by rw [attrsRegion_cons, List.nil_append, List.cons_append,
          List.head?_cons], by decide, by decide⟩
  obtain ⟨c0, hh0, hcc1, hcc2⟩ := hhead
  have hhead1 : ((tag ++ attrsRegion attrs) ++ '>' :: post).head? ≠ some '/' := by
    rw [hh0]; intro hcon; exact hcc1 (Option.some.inj hcon)
  have hhead2 : ((tag ++ attrsRegion attrs) ++ '>' :: post).head? ≠ some '!' := by
    rw [hh0]; intro hcon; exact hcc2 (Option.some.inj hcon)
  have hpre : '>' ∉ tag ++ attrsRegion attrs := by
    intro hm
    rcases List.mem_append.mp hm with hm | hm
    · exact not_mem_of_all htag1.1 (by decide) hm
    · exact gt_not_mem_attrsRegion hattrs1.1 hm
  have hlen : ('<' :: ((tag ++ attrsRegion attrs) ++ '>' :: post)).length
      = ((tag ++ attrsRegion attrs) ++ '>' :: post).length + 1 := by
    rw [List.length_cons]
  rw [hlen,
    tokList_step_starttag (((tag ++ attrsRegion attrs) ++ '>' :: post).length + 1)
      ('<' :: ((tag ++ attrsRegion attrs) ++ '>' :: post))
      ((tag ++ attrsRegion attrs) ++ '>' :: post)
      (tag ++ attrsRegion attrs) post ast
      (dropWhile_cons_false (by decide)) hhead1 hhead2 rfl hpre,
    startTagTokens_serialize tag attrs htag hattrs,
    tokList_fuel_irrel post.length post (le_refl _) _ _
      (by simp only [List.length_append, List.length_cons]; omega)]

theorem text_step_canonical (t : List Char) (hw : wfText t = true)
    (post : List Char) (ast : List HtmlAst) :
    tokListLoop ((t ++ '<' :: post).length + 1) (some (t ++ '<' :: post)) ast =
      tokListLoop (('<' :: post).length + 1) (some ('<' :: post))
        (ast ++ [HtmlAst.Text t]) := by
  rw [wfText] at hw
  simp only [Bool.and_eq_true] at hw
  cases t with
  | nil =>
    exfalso
    have := hw.1.1
    simp [List.isEmpty_nil] at this
  | cons c t' =>
    have hhd := hw.2
    rw [List.head?_cons, Option.all_some, Bool.not_eq_true'] at hhd
    have hnl := hw.1.2
    have hcne : c ≠ '<' := by
      rw [List.all_cons, Bool.and_eq_true] at hnl
      have := hnl.1
      simp only [Bool.not_eq_true', decide_eq_false_iff_not] at this
      exact this
    have hpre : '<' ∉ c :: t' := by
      apply not_mem_of_all hnl
      decide
    rw [show (c :: t') ++ '<' :: post = c :: (t' ++ '<' :: post) from rfl,
      show (c :: (t' ++ '<' :: post)).length = (t' ++ '<' :: post).length + 1
        from by rw [List.length_cons],
      tokList_step_text ((t' ++ '<' :: post).length + 1)
        (c :: (t' ++ '<' :: post)) (t' ++ '<' :: post) (c :: t') post c ast
        (dropWhile_cons_false hhd) hcne rfl hpre,
      tokList_fuel_irrel ('<' :: post).length ('<' :: post) (le_refl _) _ _
        (by simp only [List.length_append, List.length_cons]; omega)]

theorem endtag_step_canonical (tag : List Char) (hsp : '>' ∉ tag)
    (restTail : List Char) (ast : List HtmlAst) :
    tokListLoop (('<' :: ('/' :: (tag ++ '>' :: restTail))).length + 1)
        (some ('<' :: ('/' :: (tag ++ '>' :: restTail)))) ast =
      tokListLoop (restTail.length + 1) (some restTail)
        (ast ++ [HtmlAst.EndTag]) := by
  have hshape : ('/' :: (tag ++ '>' :: restTail)) = ('/' :: tag) ++ '>' :: restTail := by
    rw [List.cons_append]
  rw [show ('<' :: ('/' :: (tag ++ '>' :: restTail))).length
      = ('/' :: (tag ++ '>' :: restTail)).length + 1 from by rw [List.length_cons],
    tokList_step_endtag (('/' :: (tag ++ '>' :: restTail)).length + 1)
      ('<' :: ('/' :: (tag ++ '>' :: restTail)))
      ('/' :: (tag ++ '>' :: restTail)) ('/' :: tag) restTail ast
      (dropWhile_cons_false (by decide)) rfl hshape
      (by
        intro hm
        rcases List.mem_cons.mp hm with hm | hm
        · cases hm
        · exact hsp hm),
    tokList_fuel_irrel restTail.length restTail (le_refl _) _ _
      (by simp only [List.length_cons, List.length_append]; omega)]

/-- Tokenizing a serialized well-formed forest (followed by any tail) consumes
exactly the serialized region and appends the forest's token stream. -/
theorem serialize_tokenizes :
    ∀ (n : Nat) (F : List HtmlElement), sizeOf F ≤ n → wfForest F = true →
      ∀ (tail : List Char) (ast : List HtmlAst),
      tokListLoop ((html_to_string F ++ tail).length + 1)
          (some (html_to_string F ++ tail)) ast
        = tokListLoop (tail.length + 1) (some tail) (ast ++ tokensOfForest F) := by
  intro n
  induction n with
  | zero =>
    intro F hsz hwf tail ast
    cases F with
    | nil => exact absurd hsz (by simp only [List.nil.sizeOf_spec]; omega)
    | cons e r => exact absurd hsz (by simp only [List.cons.sizeOf_spec]; omega)
  | succ n ih =>
    intro F hsz hwf
    cases F with
    | nil =>
      intro tail ast
      simp only [html_to_string, tokensOfForest, List.nil_append, List.append_nil]
    | cons e rest =>
      obtain ⟨tg, ats, ch, it⟩ := e
      simp only [wfForest] at hwf
      simp only [Bool.and_eq_true] at hwf
      obtain ⟨⟨⟨⟨htg, hat⟩, hin⟩, hwfc⟩, hwfr⟩ := hwf
      have hsz' := hsz
      simp only [List.cons.sizeOf_spec, HtmlElement.mk.sizeOf_spec] at hsz'
      have hszc : sizeOf ch ≤ n := by omega
      have hszr : sizeOf rest ≤ n := by omega
      have htg1 := htg
      rw [wfTag, Bool.and_eq_true] at htg1
      have hgt : '>' ∉ tg := not_mem_of_all htg1.1 (by decide)
      intro tail ast
      cases it with
      | some t =>
        rw [Option.all_some] at hin
        simp only [Bool.and_eq_true] at hin
        obtain ⟨hwt, hche⟩ := hin
        have hfull : html_to_string (HtmlElement.mk tg ats ch (some t) :: rest) ++ tail
            = '<' :: ((tg ++ attrsRegion ats) ++ '>' ::
                (t ++ '<' :: ('/' :: (tg ++ '>' :: (html_to_string rest ++ tail))))) := by
          simp only [html_to_string]
          rw [serialize_if_eq]
          simp only [List.append_assoc, List.cons_append, List.singleton_append,
            List.nil_append]
        rw [hfull,
          starttag_step_canonical tg ats htg hat
            (t ++ '<' :: ('/' :: (tg ++ '>' :: (html_to_string rest ++ tail)))) ast,
          text_step_canonical t hwt
            ('/' :: (tg ++ '>' :: (html_to_string rest ++ tail)))
            (ast ++ (HtmlAst.StartTag tg ::
              ats.map fun a => HtmlAst.Attribute a.name a.value)),
          endtag_step_canonical tg hgt (html_to_string rest ++ tail)
            ((ast ++ (HtmlAst.StartTag tg ::
              ats.map fun a => HtmlAst.Attribute a.name a.value)) ++ [HtmlAst.Text t]),
          ih rest hszr hwfr tail
            (((ast ++ (HtmlAst.StartTag tg ::
              ats.map fun a => HtmlAst.Attribute a.name a.value)) ++ [HtmlAst.Text t])
              ++ [HtmlAst.EndTag])]
        simp only [tokensOfForest, List.append_assoc, List.cons_append,
          List.singleton_append]
      | none =>
        have hfull : html_to_string (HtmlElement.mk tg ats ch none :: rest) ++ tail
            = '<' :: ((tg ++ attrsRegion ats) ++ '>' ::
                (html_to_string ch ++
                  '<' :: ('/' :: (tg ++ '>' :: (html_to_string rest ++ tail))))) := by
          simp only [html_to_string]
          rw [serialize_if_eq]
          simp only [List.append_assoc, List.cons_append, List.singleton_append,
            List.nil_append]
        rw [hfull,
          starttag_step_canonical tg ats htg hat
            (html_to_string ch ++
              '<' :: ('/' :: (tg ++ '>' :: (html_to_string rest ++ tail)))) ast,
          ih ch hszc hwfc
            ('<' :: ('/' :: (tg ++ '>' :: (html_to_string rest ++ tail))))
            (ast ++ (HtmlAst.StartTag tg ::
              ats.map fun a => HtmlAst.Attribute a.name a.value)),
          endtag_step_canonical tg hgt (html_to_string rest ++ tail)
            ((ast ++ (HtmlAst.StartTag tg ::
              ats.map fun a => HtmlAst.Attribute a.name a.value))
              ++ tokensOfForest ch),
          ih rest hszr hwfr tail
            (((ast ++ (HtmlAst.StartTag tg ::
              ats.map fun a => HtmlAst.Attribute a.name a.value))
              ++ tokensOfForest ch) ++ [HtmlAst.EndTag])]
        simp only [tokensOfForest, List.append_assoc, List.cons_append,
          List.singleton_append]

/-- A run of `Attribute` tokens folds into the attribute list of the element on
top of the stack. -/
theorem buildLoop_attrs (ats : List HtmlAttribute) :
    ∀ (ts : List HtmlAst) (f : HtmlElement) (stack elements : List HtmlElement),
    buildLoop ((ats.map fun a => HtmlAst.Attribute a.name a.value) ++ ts)
        (f :: stack) elements
      = buildLoop ts ({ f with attributes := f.attributes ++ ats } :: stack)
          elements := by
  induction ats with
  | nil =>
    intro ts f stack elements
    obtain ⟨ftg, fats, fch, fit⟩ := f
    rw [List.map_nil, List.nil_append, List.append_nil]
  | cons a t ih =>
    intro ts f stack elements
    rw [List.map_cons, List.cons_append]
    rw [show buildLoop (HtmlAst.Attribute a.name a.value ::
          ((t.map fun a => HtmlAst.Attribute a.name a.value) ++ ts))
          (f :: stack) elements
        = buildLoop ((t.map fun a => HtmlAst.Attribute a.name a.value) ++ ts)
          (f.add_attribute a.name a.value :: stack) elements from rfl,
      ih ts (f.add_attribute a.name a.value) stack elements]
    show buildLoop ts
        (HtmlElement.mk f.tag ((f.attributes ++ [a]) ++ t) f.children
          f.inner_text :: stack) elements
      = buildLoop ts
        (HtmlElement.mk f.tag (f.attributes ++ a :: t) f.children
          f.inner_text :: stack) elements
    rw [List.append_assoc, List.singleton_append]

/-- The builder consumes the token stream of a well-formed forest by appending
the forest to the children of the element on top of the stack (first part), or
to the finished-element list when the stack is empty (second part). -/
theorem buildLoop_forest :
    ∀ (n : Nat) (F : List HtmlElement), sizeOf F ≤ n → wfForest F = true →
      (∀ (ts : List HtmlAst) (f : HtmlElement) (stack elements : List HtmlElement),
        buildLoop (tokensOfForest F ++ ts) (f :: stack) elements
          = buildLoop ts ({ f with children := f.children ++ F } :: stack)
              elements) ∧
      (∀ (ts : List HtmlAst) (elements : List HtmlElement),
        buildLoop (tokensOfForest F ++ ts) [] elements
          = buildLoop ts [] (elements ++ F)) := by
  intro n
  induction n with
  | zero =>
    intro F hsz hwf
    cases F with
    | nil => exact absurd hsz (by simp only [List.nil.sizeOf_spec]; omega)
    | cons e r => exact absurd hsz (by simp only [List.cons.sizeOf_spec]; omega)
  | succ n ih =>
    intro F hsz hwf
    cases F with
    | nil =>
      constructor
      · intro ts f stack elements
        obtain ⟨ftg, fats, fch, fit⟩ := f
        simp only [tokensOfForest, List.nil_append, List.append_nil]
      · intro ts elements
        simp only [tokensOfForest, List.nil_append, List.append_nil]
    | cons e rest =>
      obtain ⟨tg, ats, ch, it⟩ := e
      simp only [wfForest] at hwf
      simp only [Bool.and_eq_true] at hwf
      obtain ⟨⟨⟨⟨htg, hat⟩, hin⟩, hwfc⟩, hwfr⟩ := hwf
      have hsz' := hsz
      simp only [List.cons.sizeOf_spec, HtmlElement.mk.sizeOf_spec] at hsz'
      have hszc : sizeOf ch ≤ n := by omega
      have hszr : sizeOf rest ≤ n := by omega
      cases it with
      | some t =>
        rw [Option.all_some] at hin
        simp only [Bool.and_eq_true] at hin
        obtain ⟨hwt, hche⟩ := hin
        have hch : ch = [] := by
          cases ch with
          | nil => rfl
          | cons x y => simp at hche
        subst hch
        have hts : ∀ ts : List HtmlAst,
            tokensOfForest (HtmlElement.mk tg ats [] (some t) :: rest) ++ ts
              = HtmlAst.StartTag tg ::
                  ((ats.map fun a => HtmlAst.Attribute a.name a.value) ++
                    (HtmlAst.Text t ::
                      (HtmlAst.EndTag :: (tokensOfForest rest ++ ts)))) := by
          intro ts
          simp only [tokensOfForest, List.append_assoc, List.cons_append,
            List.singleton_append, List.nil_append]
        have hmid : ∀ (X : List HtmlAst) (st elements : List HtmlElement),
            buildLoop (HtmlAst.StartTag tg ::
                ((ats.map fun a => HtmlAst.Attribute a.name a.value) ++
                  (HtmlAst.Text t :: X))) st elements
              = buildLoop X (HtmlElement.mk tg ats [] (some t) :: st) elements := by
          intro X st elements
          rw [show buildLoop (HtmlAst.StartTag tg ::
                ((ats.map fun a => HtmlAst.Attribute a.name a.value) ++
                  (HtmlAst.Text t :: X))) st elements
              = buildLoop ((ats.map fun a => HtmlAst.Attribute a.name a.value) ++
                  (HtmlAst.Text t :: X)) (HtmlElement.new tg :: st) elements
              from rfl,
            buildLoop_attrs ats (HtmlAst.Text t :: X) (HtmlElement.new tg)
              st elements]
          rfl
        constructor
        · intro ts f stack elements
          rw [hts ts,
            hmid (HtmlAst.EndTag :: (tokensOfForest rest ++ ts)) (f :: stack)
              elements,
            show buildLoop (HtmlAst.EndTag :: (tokensOfForest rest ++ ts))
                (HtmlElement.mk tg ats [] (some t) :: (f :: stack)) elements
              = buildLoop (tokensOfForest rest ++ ts)
                (f.add_child (HtmlElement.mk tg ats [] (some t)) :: stack)
                elements from rfl,
            (ih rest hszr hwfr).1 ts
              (f.add_child (HtmlElement.mk tg ats [] (some t))) stack elements]
          show buildLoop ts
              (HtmlElement.mk f.tag f.attributes
                ((f.children ++ [HtmlElement.mk tg ats [] (some t)]) ++ rest)
                f.inner_text :: stack) elements
            = buildLoop ts
              (HtmlElement.mk f.tag f.attributes
                (f.children ++ HtmlElement.mk tg ats [] (some t) :: rest)
                f.inner_text :: stack) elements
          rw [List.append_assoc, List.singleton_append]
        · intro ts elements
          rw [hts ts,
            hmid (HtmlAst.EndTag :: (tokensOfForest rest ++ ts)) [] elements,
            show buildLoop (HtmlAst.EndTag :: (tokensOfForest rest ++ ts))
                (HtmlElement.mk tg ats [] (some t) :: ([] : List HtmlElement))
                elements
              = buildLoop (tokensOfForest rest ++ ts) []
                (elements ++ [HtmlElement.mk tg ats [] (some t)]) from rfl,
            (ih rest hszr hwfr).2 ts
              (elements ++ [HtmlElement.mk tg ats [] (some t)])]
          rw [List.append_assoc, List.singleton_append]
      | none =>
        have hts : ∀ ts : List HtmlAst,
            tokensOfForest (HtmlElement.mk tg ats ch none :: rest) ++ ts
              = HtmlAst.StartTag tg ::
                  ((ats.map fun a => HtmlAst.Attribute a.name a.value) ++
                    (tokensOfForest ch ++
                      (HtmlAst.EndTag :: (tokensOfForest rest ++ ts)))) := by
          intro ts
          simp only [tokensOfForest, List.append_assoc, List.cons_append,
            List.singleton_append, List.nil_append]
        have hmid : ∀ (X : List HtmlAst) (st elements : List HtmlElement),
            buildLoop (HtmlAst.StartTag tg ::
                ((ats.map fun a => HtmlAst.Attribute a.name a.value) ++
                  (tokensOfForest ch ++ X))) st elements
              = buildLoop X (HtmlElement.mk tg ats ch none :: st) elements := by
          intro X st elements
          rw [show buildLoop (HtmlAst.StartTag tg ::
                ((ats.map fun a => HtmlAst.Attribute a.name a.value) ++
                  (tokensOfForest ch ++ X))) st elements
              = buildLoop ((ats.map fun a => HtmlAst.Attribute a.name a.value) ++
                  (tokensOfForest ch ++ X)) (HtmlElement.new tg :: st) elements
              from rfl,
            buildLoop_attrs ats (tokensOfForest ch ++ X) (HtmlElement.new tg)
              st elements,
            show ({ HtmlElement.new tg with
                attributes := (HtmlElement.new tg).attributes ++ ats } : HtmlElement)
              = HtmlElement.mk tg ats [] none from rfl,
            (ih ch hszc hwfc).1 X (HtmlElement.mk tg ats [] none) st elements]
          rfl
        constructor
        · intro ts f stack elements
          rw [hts ts,
            hmid (HtmlAst.EndTag :: (tokensOfForest rest ++ ts)) (f :: stack)
              elements,
            show buildLoop (HtmlAst.EndTag :: (tokensOfForest rest ++ ts))
                (HtmlElement.mk tg ats ch none :: (f :: stack)) elements
              = buildLoop (tokensOfForest rest ++ ts)
                (f.add_child (HtmlElement.mk tg ats ch none) :: stack)
                elements from rfl,
            (ih rest hszr hwfr).1 ts
              (f.add_child (HtmlElement.mk tg ats ch none)) stack elements]
          show buildLoop ts
              (HtmlElement.mk f.tag f.attributes
                ((f.children ++ [HtmlElement.mk tg ats ch none]) ++ rest)
                f.inner_text :: stack) elements
            = buildLoop ts
              (HtmlElement.mk f.tag f.attributes
                (f.children ++ HtmlElement.mk tg ats ch none :: rest)
                f.inner_text :: stack) elements
          rw [List.append_assoc, List.singleton_append]
        · intro ts elements
          rw [hts ts,
            hmid (HtmlAst.EndTag :: (tokensOfForest rest ++ ts)) [] elements,
            show buildLoop (HtmlAst.EndTag :: (tokensOfForest rest ++ ts))
                (HtmlElement.mk tg ats ch none :: ([] : List HtmlElement))
                elements
              = buildLoop (tokensOfForest rest ++ ts) []
                (elements ++ [HtmlElement.mk tg ats ch none]) from rfl,
            (ih rest hszr hwfr).2 ts
              (elements ++ [HtmlElement.mk tg ats ch none])]
          rw [List.append_assoc, List.singleton_append]

/-- Tokenizing the serialization of a well-formed forest succeeds and yields
exactly the forest's token stream. -/
theorem tokenize_serialize (F : List HtmlElement) (hwf : wfForest F = true) :
    tokenize_html (html_to_string F) = PResult.ok (tokensOfForest F) := by
  rw [tokenize_html_eq_tokList,
    tokList_fuel_irrel (html_to_string F).length (html_to_string F) (le_refl _)
      [] ((html_to_string F).length + 2) (by omega)]
  have h := serialize_tokenizes (sizeOf F) F (le_refl _) hwf [] []
  rw [List.append_nil] at h
  rw [h, tokList_step_done (List.length ([] : List Char)) []
    ([] ++ tokensOfForest F) rfl, List.nil_append]

/-- C3 counterexample: the input `<div>a<b></b>c</div>` is parsed successfully
(well-formed, no quoted attribute values at all), but `parse (serialize (parse
input))` differs from `parse input`: the first parse keeps child `b` and only
the last text run `c`; serialization emits only the inner text, so the child
`b` is lost on the round trip. -/
theorem c3_counterexample :
    parse_html (String.toList "<div>a<b></b>c</div>")
        = PResult.ok [HtmlElement.mk (String.toList "div") []
            [HtmlElement.mk (String.toList "b") [] [] none]
            (some (String.toList "c"))] ∧
    html_to_string [HtmlElement.mk (String.toList "div") []
        [HtmlElement.mk (String.toList "b") [] [] none]
        (some (String.toList "c"))] = String.toList "<div>c</div>" ∧
    parse_html (html_to_string [HtmlElement.mk (String.toList "div") []
        [HtmlElement.mk (String.toList "b") [] [] none]
        (some (String.toList "c"))])
      ≠ parse_html (String.toList "<div>a<b></b>c</div>") := by
  have h1 : parse_html (String.toList "<div>a<b></b>c</div>")
      = PResult.ok [HtmlElement.mk (String.toList "div") []
          [HtmlElement.mk (String.toList "b") [] [] none]
          (some (String.toList "c"))] := by rfl
  have h2 : html_to_string [HtmlElement.mk (String.toList "div") []
      [HtmlElement.mk (String.toList "b") [] [] none]
      (some (String.toList "c"))] = String.toList "<div>c</div>" := by
    simp only [html_to_string]
    rfl
  have h3 : parse_html (String.toList "<div>c</div>")
      = PResult.ok [HtmlElement.mk (String.toList "div") [] []
          (some (String.toList "c"))] := by rfl
  refine ⟨h1, h2, ?_⟩
  rw [h2, h3, h1]
  intro hcon
  simp at hcon

/-- C3 (amended): for every input whose parse succeeds with a forest that is
round-trip stable (`wfForest`: tags, attributes and text runs are in tokenizer
normal form and every element that retains inner text has no children),
serialize-then-parse reproduces the first parse: `parse_html (html_to_string F)
= parse_html s` whenever `parse_html s = ok F` and `wfForest F = true`. -/
theorem c3_theorem (s : List Char) (F : List HtmlElement)
    (hparse : parse_html s = PResult.ok F) (hwf : wfForest F = true) :
    parse_html (html_to_string F) = parse_html s := by
  rw [hparse]
  simp only [parse_html, tokenize_serialize F hwf]
  have hb := (buildLoop_forest (sizeOf F) F (le_refl _) hwf).2 [] []
  rw [List.append_nil, List.nil_append] at hb
  rw [hb]
  rfl

/-- Witness for C3 at the repo's own test input
`<div><button class="btn">Hello</button></div>`. -/
theorem c3_witness :
    parse_html (String.toList "<div><button class=\"btn\">Hello</button></div>")
        = PResult.ok [HtmlElement.mk (String.toList "div") []
            [HtmlElement.mk (String.toList "button")
              [HtmlAttribute.mk (String.toList "class")
                (some (String.toList "btn"))] []
              (some (String.toList "Hello"))] none] ∧
    wfForest [HtmlElement.mk (String.toList "div") []
        [HtmlElement.mk (String.toList "button")
          [HtmlAttribute.mk (String.toList "class")
            (some (String.toList "btn"))] []
          (some (String.toList "Hello"))] none] = true ∧
    parse_html (html_to_string [HtmlElement.mk (String.toList "div") []
        [HtmlElement.mk (String.toList "button")
          [HtmlAttribute.mk (String.toList "class")
            (some (String.toList "btn"))] []
          (some (String.toList "Hello"))] none])
      = parse_html
          (String.toList "<div><button class=\"btn\">Hello</button></div>") := by
  have h1 : parse_html
      (String.toList "<div><button class=\"btn\">Hello</button></div>")
      = PResult.ok [HtmlElement.mk (String.toList "div") []
          [HtmlElement.mk (String.toList "button")
            [HtmlAttribute.mk (String.toList "class")
              (some (String.toList "btn"))] []
            (some (String.toList "Hello"))] none] := by rfl
  have h2 : wfForest [HtmlElement.mk (String.toList "div") []
      [HtmlElement.mk (String.toList "button")
        [HtmlAttribute.mk (String.toList "class")
          (some (String.toList "btn"))] []
        (some (String.toList "Hello"))] none] = true := by
    simp only [wfForest]
    decide
  exact ⟨h1, h2, c3_theorem
    (String.toList "<div><button class=\"btn\">Hello</button></div>") _ h1 h2⟩
